import Mathlib

/-!
Social-network graph: adjacency lists, friend lists and BFS connections.

A shallow embedding of `src/main.c` and a verification of its graph store and of its
breadth-first shortest-connection search.

Modelling conventions.

* C `int` values are `Int`.  Vertex ids are compared and stored, never added; the only
  counter is `friendCount`, which counts the nodes of one adjacency list, and that number
  is taken to stay below `2^31`, so no arithmetic of the program wraps.
* A null-terminated singly linked list of `Node`s is the Lean list of the `id` fields,
  head first.
* An `int`-indexed C array (`adjLists`, `visited`, `parent`) is a function on `Int`, and
  `a[i] = v` is `setAt a i v`.  The cells with index in `[0, numVertices)` are the array
  proper; the other cells stand for memory outside of the allocation, and the results
  below only speak of accesses inside the array.
* The linked queue is modelled at the level of its nodes: a store of `QueueNode`s
  addressed by natural numbers, with `front` and `rear` pointers.
* `while` loops whose termination is not structural carry a `fuel` argument; `none` means
  that the fuel ran out.  Every result about `findConnection` is proved for all
  sufficiently large fuel.
* Printed output is modelled by a value that records which message is printed and with
  which numbers.
* Statements about what the search loop does on its way (which cells it indexes, how often
  it calls `dequeue`, what happens after `dest` is discovered) are made on
  `bfsLoopTrace`, the same loop returning also a record of its iterations; its state
  component is proved to be that of `bfsLoop`.
-/

namespace SocialGraph

/-! ## Arrays -/

/-- The array assignment `a[i] = v`. -/
def setAt {α : Type} (a : Int → α) (i : Int) (v : α) : Int → α :=
  fun j => if j = i then v else a j

/-! ## Graph store -/

/-- The C `struct Graph`: `adjLists i` is the linked list hanging off `adjLists[i]`,
as the list of its `id` fields. -/
structure Graph where
  numVertices : Int
  adjLists : Int → List Int

/-- Function `createGraph`: records the vertex count and sets every adjacency list to `NULL`.
There is no check on `vertices`. -/
def createGraph (vertices : Int) : Graph :=
  { numVertices := vertices, adjLists := fun _ => [] }

/-- Function `addEdge`: pushes a node `dest` on the front of `adjLists[src]`, then a node `src` on
the front of `adjLists[dest]`.  There is no check on `src` or `dest`. -/
def addEdge (graph : Graph) (src dest : Int) : Graph :=
  let g1 : Graph :=
    { graph with adjLists := setAt graph.adjLists src (dest :: graph.adjLists src) }
  { g1 with adjLists := setAt g1.adjLists dest (src :: g1.adjLists dest) }

/-- Function `loadGraphFromFile`, on the parsed contents of the file: the vertex count `n` and the
`e` edges that follow it, in file order. -/
def loadGraphFromFile (n : Int) (edges : List (Int × Int)) : Graph :=
  edges.foldl (fun g e => addEdge g e.1 e.2) (createGraph n)

/-! ## Friend list -/

/-- What `displayFriendList` prints. -/
inductive FriendListOutput where
  /-- Message `Error: Person ID %d does not exist in the dataset.` -/
  | notFound (personId : Int)
  /-- Message `Person %d has %d friends!`, then the listed ids (nothing when the count is 0). -/
  | friends (personId : Int) (friendCount : Int) (listed : List Int)
  deriving DecidableEq

/-- The counting loop of `displayFriendList`: `friendCount++` for every node. -/
def countFriends : List Int → Int → Int
  | [], friendCount => friendCount
  | _ :: counter, friendCount => countFriends counter (friendCount + 1)

/-- Function `displayFriendList`: the range guard, the counting loop, then the listing. -/
def displayFriendList (graph : Graph) (personId : Int) : FriendListOutput :=
  if personId < 0 ∨ personId ≥ graph.numVertices then
    .notFound personId
  else
    let temp := graph.adjLists personId
    let friendCount := countFriends temp 0
    if friendCount > 0 then .friends personId friendCount temp
    else .friends personId friendCount []

/-! ## Linked queue -/

/-- The C `struct QueueNode`; `next = none` is `NULL`. -/
structure QueueNode where
  vertex : Int
  next : Option Nat
  deriving DecidableEq

/-- The C `struct Queue` together with the nodes it points into: `mem a` is the node at
address `a`, and `brk` is the address that the next `malloc` returns.  A node released by
`free` keeps its cell, which nothing points to any more; addresses are not handed out
twice. -/
structure Queue where
  mem : Nat → QueueNode
  brk : Nat
  front : Option Nat
  rear : Option Nat

/-- Function `createQueue`: both pointers are `NULL`. -/
def createQueue : Queue :=
  { mem := fun _ => ⟨0, none⟩, brk := 0, front := none, rear := none }

/-- Function `enqueue`: allocates a node and links it behind `rear`. -/
def enqueue (q : Queue) (vertex : Int) : Queue :=
  let newNode := q.brk
  let mem1 : Nat → QueueNode := fun a => if a = newNode then ⟨vertex, none⟩ else q.mem a
  match q.rear with
  | none => { mem := mem1, brk := q.brk + 1, front := some newNode, rear := some newNode }
  | some r =>
    { mem := fun a => if a = r then { mem1 r with next := some newNode } else mem1 a,
      brk := q.brk + 1, front := q.front, rear := some newNode }

/-- Function `dequeue`: the returned vertex and the queue afterwards. -/
def dequeue (q : Queue) : Int × Queue :=
  match q.front with
  | none => (-1, q)
  | some temp =>
    let vertex := (q.mem temp).vertex
    let front := (q.mem temp).next
    (vertex, { q with front := front, rear := if front = none then none else q.rear })

/-- Function `isEmpty`: `front == NULL`. -/
def isEmpty (q : Queue) : Bool :=
  q.front == none

/-! ## Shortest connection -/

/-- The local variables of the search loop of `findConnection`. -/
structure BfsState where
  visited : Int → Bool
  parent : Int → Int
  queue : Queue
  found : Bool

/-- The inner `while (temp != NULL)` loop of `findConnection`, run on the list `temp`
of `current`. -/
def expandNeighbors (dest current : Int) : List Int → BfsState → BfsState
  | [], s => s
  | neighbor :: temp, s =>
    if !s.visited neighbor then
      let s1 : BfsState :=
        { visited := setAt s.visited neighbor true,
          parent := setAt s.parent neighbor current,
          queue := enqueue s.queue neighbor,
          found := s.found }
      if neighbor = dest then { s1 with found := true }
      else expandNeighbors dest current temp s1
    else expandNeighbors dest current temp s

/-- The outer `while (!isEmpty(queue) && !found)` loop of `findConnection`; one unit of
fuel per iteration. -/
def bfsLoop (graph : Graph) (dest : Int) : Nat → BfsState → Option BfsState
  | fuel, s =>
    if !isEmpty s.queue && !s.found then
      match fuel with
      | 0 => none
      | fuel + 1 =>
        let current := (dequeue s.queue).1
        let s1 := { s with queue := (dequeue s.queue).2 }
        bfsLoop graph dest fuel (expandNeighbors dest current (graph.adjLists current) s1)
    else some s

/-- The loop `while (current != -1) { path[pathLength++] = current; current = parent[current]; }`:
the contents `path[0], ..., path[pathLength-1]`; one unit of fuel per iteration. -/
def reconstructPath (parent : Int → Int) : Nat → Int → Option (List Int)
  | fuel, current =>
    if current ≠ -1 then
      match fuel with
      | 0 => none
      | fuel + 1 => (reconstructPath parent fuel (parent current)).map (current :: ·)
    else some []

/-- The loop `for (i = ...; i > 0; i--) printf("%d is friends with %d\n", path[i], path[i-1])`
entered with index `i`: the printed pairs, in printing order. -/
def printLoop (path : List Int) : Nat → List (Int × Int)
  | 0 => []
  | i + 1 => (path.getD (i + 1) 0, path.getD i 0) :: printLoop path i

/-- What `findConnection` prints. -/
inductive ConnectionResult where
  /-- Message `Error: One or both person IDs do not exist in the dataset.` -/
  | OutOfRange
  /-- Message `Person %d is the same as person %d.` -/
  | SameVertex (src dest : Int)
  /-- Message `There is a connection from %d to %d!`; `path` is the array filled by the
  reconstruction loop (`path[0]` first) and `printed` the `is friends with` lines. -/
  | Connected (src dest : Int) (path : List Int) (printed : List (Int × Int))
  /-- Message `Cannot find a connection between %d and %d`. -/
  | NotConnected (src dest : Int)
  deriving DecidableEq

/-- The state in which `findConnection` enters its search loop. -/
def bfsInit (src : Int) : BfsState :=
  { visited := setAt (fun _ => false) src true,
    parent := fun _ => -1,
    queue := enqueue createQueue src,
    found := false }

/-- Function `findConnection`; `none` when the fuel does not suffice for one of its loops. -/
def findConnection (fuel : Nat) (graph : Graph) (src dest : Int) : Option ConnectionResult :=
  if src < 0 ∨ src ≥ graph.numVertices ∨ dest < 0 ∨ dest ≥ graph.numVertices then
    some .OutOfRange
  else if src = dest then
    some (.SameVertex src dest)
  else
    match bfsLoop graph dest fuel (bfsInit src) with
    | none => none
    | some s =>
      if s.found then
        match reconstructPath s.parent fuel dest with
        | none => none
        | some path => some (.Connected src dest path (printLoop path (path.length - 1)))
      else some (.NotConnected src dest)

/-! ## Specification vocabulary -/

/-- Every endpoint of every edge of the list is a vertex of a graph with `n` vertices. -/
def InRangeEdges (n : Int) (edges : List (Int × Int)) : Prop :=
  ∀ e ∈ edges, (0 ≤ e.1 ∧ e.1 < n) ∧ (0 ≤ e.2 ∧ e.2 < n)

instance (n : Int) (edges : List (Int × Int)) : Decidable (InRangeEdges n edges) := by
  unfold InRangeEdges; infer_instance

/-- The entries that one `addEdge g e.1 e.2` pushes on the list of `v`, topmost first. -/
def pushedBy (v : Int) (e : Int × Int) : List Int :=
  (if v = e.2 then [e.1] else []) ++ (if v = e.1 then [e.2] else [])

/-- The entries pushed on the list of `v` by a sequence of `addEdge` calls, topmost
(most recent) first. -/
def pushedAll (v : Int) : List (Int × Int) → List Int
  | [] => []
  | e :: rest => pushedAll v rest ++ pushedBy v e

/-- The nodes at the addresses `addrs` are chained by their `next` fields in this order,
and the chain ends at the last of them. -/
def Linked (mem : Nat → QueueNode) : List Nat → Prop
  | [] => True
  | [a] => (mem a).next = none
  | a :: b :: rest => (mem a).next = some b ∧ Linked mem (b :: rest)

/-- The linked queue `q` holds the vertices `l`, front first: some chain of distinct
allocated nodes runs from `front` to `rear` and carries `l`. -/
def Queue.Holds (q : Queue) (l : List Int) : Prop :=
  ∃ addrs : List Nat, addrs.Nodup ∧ (∀ a ∈ addrs, a < q.brk) ∧ Linked q.mem addrs ∧
    q.front = addrs.head? ∧ q.rear = addrs.getLast? ∧
    addrs.map (fun a => (q.mem a).vertex) = l

/-- Every id stored in the adjacency list of a vertex is itself a vertex. -/
def Graph.NeighborsInRange (g : Graph) : Prop :=
  ∀ v b, 0 ≤ v → v < g.numVertices → b ∈ g.adjLists v → 0 ≤ b ∧ b < g.numVertices

/-- Predicate `WalkOfLength g src v k`: some walk of the graph leads from `src` to `v`
along `k` edges, an edge from `a` to `b` being an entry `b` in the adjacency list of `a`. -/
inductive WalkOfLength (g : Graph) (src : Int) : Int → Nat → Prop where
  | start : WalkOfLength g src src 0
  | step {a b : Int} {k : Nat} :
      WalkOfLength g src a k → b ∈ g.adjLists a → WalkOfLength g src b (k + 1)

/-- Vertex `v` can be reached from `src` along edges of the graph. -/
def Reachable (g : Graph) (src v : Int) : Prop :=
  ∃ k, WalkOfLength g src v k

/-- The number of cells of `visited[0 .. n-1]` that are still `false`. -/
def unvisitedCount (n : Int) (visited : Int → Bool) : Nat :=
  ((Finset.Ico (0 : Int) n).filter (fun i => visited i = false)).card

/-- The invariant of the search of `findConnection` from `src`, on the arrays `visited`
and `parent` and the flag `found`.  `todo` lists the visited vertices whose adjacency
list has not been walked to its end (the vertex being expanded, then the queue), and
`lvl` is the breadth-first level of the visited vertices. -/
structure BfsInv (g : Graph) (src dest : Int) (lvl : Int → Nat) (visited : Int → Bool)
    (parent : Int → Int) (found : Bool) (todo : List Int) : Prop where
  range : ∀ v, visited v = true → 0 ≤ v ∧ v < g.numVertices
  src_visited : visited src = true
  src_parent : parent src = -1
  lvl_src : lvl src = 0
  parent_ok : ∀ v, visited v = true → v ≠ src →
    visited (parent v) = true ∧ v ∈ g.adjLists (parent v) ∧ lvl v = lvl (parent v) + 1
  todo_visited : ∀ a ∈ todo, visited a = true
  todo_sorted : todo.Pairwise (fun a b => lvl a ≤ lvl b)
  lvl_le : ∀ v, visited v = true → ∀ a ∈ todo, lvl v ≤ lvl a + 1
  closed : ∀ a, visited a = true → a ∉ todo → ∀ b ∈ g.adjLists a, visited b = true
  edge_lvl : ∀ a b, visited a = true → visited b = true → b ∈ g.adjLists a →
    lvl b ≤ lvl a + 1
  found_iff : found = true ↔ visited dest = true

/-- The number of edges of the list that have `v` as an endpoint, each entry of the list
counted once (so parallel edges count with their multiplicity). -/
def incidentCount (v : Int) (edges : List (Int × Int)) : Nat :=
  (edges.filter (fun e => decide (e.1 = v ∨ e.2 = v))).length

/-- The number of entries `(v, v)` of the edge list. -/
def selfLoopCount (v : Int) (edges : List (Int × Int)) : Nat :=
  (edges.filter (fun e => decide (e.1 = v ∧ e.2 = v))).length

/-! ## The search loop with its accesses recorded -/

/-- One pass of the inner loop of `findConnection` over a list node: `examined b` is the
read of `visited[b]`, and `discovered b` stands for the three statements
`visited[b] = true; parent[b] = current; enqueue(queue, b)`. -/
inductive NeighborEvent where
  | examined (neighbor : Int)
  | discovered (neighbor : Int)
  deriving DecidableEq

/-- The index that an event uses in `visited` and `parent`. -/
def NeighborEvent.index : NeighborEvent → Int
  | .examined neighbor => neighbor
  | .discovered neighbor => neighbor

/-- The inner loop `expandNeighbors`, returning also the events of its nodes in order. -/
def expandNeighborsTrace (dest current : Int) :
    List Int → BfsState → BfsState × List NeighborEvent
  | [], s => (s, [])
  | neighbor :: temp, s =>
    if !s.visited neighbor then
      let s1 : BfsState :=
        { visited := setAt s.visited neighbor true,
          parent := setAt s.parent neighbor current,
          queue := enqueue s.queue neighbor,
          found := s.found }
      if neighbor = dest then
        ({ s1 with found := true }, [.examined neighbor, .discovered neighbor])
      else
        let r := expandNeighborsTrace dest current temp s1
        (r.1, .examined neighbor :: .discovered neighbor :: r.2)
    else
      let r := expandNeighborsTrace dest current temp s
      (r.1, .examined neighbor :: r.2)

/-- The outer loop `bfsLoop`, returning also one entry per iteration: the vertex returned
by `dequeue` and the events of the inner loop run on its adjacency list. -/
def bfsLoopTrace (graph : Graph) (dest : Int) :
    Nat → BfsState → Option (BfsState × List (Int × List NeighborEvent))
  | fuel, s =>
    if !isEmpty s.queue && !s.found then
      match fuel with
      | 0 => none
      | fuel + 1 =>
        let current := (dequeue s.queue).1
        let s1 := { s with queue := (dequeue s.queue).2 }
        let r := expandNeighborsTrace dest current (graph.adjLists current) s1
        (bfsLoopTrace graph dest fuel r.1).map (fun t => (t.1, (current, r.2) :: t.2))
    else some (s, [])

/-! ## Verdicts, FIFO lists and friend lists, as the specification words them -/

/-- The kind of answer of a connection query, with the number of hops of the path when
there is one. -/
inductive Verdict where
  | outOfRange
  | sameVertex
  | connected (hops : Nat)
  | notConnected
  deriving DecidableEq

/-- The verdict that an output of `findConnection` expresses; the number of hops of a
reported path is the number of its vertices minus one. -/
def ConnectionResult.verdict : ConnectionResult → Verdict
  | .OutOfRange => .outOfRange
  | .SameVertex _ _ => .sameVertex
  | .Connected _ _ path _ => .connected (path.length - 1)
  | .NotConnected _ _ => .notConnected

/-- A call on a queue. -/
inductive QueueOp where
  | enqueueOp (vertex : Int)
  | dequeueOp
  | isEmptyOp
  deriving DecidableEq

/-- What a call on a queue returns to its caller. -/
inductive QueueObs where
  | done
  | vertex (v : Int)
  | empty (b : Bool)
  deriving DecidableEq

/-- The calls `ops` made in order on the linked queue `q`: the queue afterwards and what
the calls returned. -/
def runQueue : List QueueOp → Queue → Queue × List QueueObs
  | [], q => (q, [])
  | .enqueueOp v :: ops, q =>
    let r := runQueue ops (enqueue q v)
    (r.1, .done :: r.2)
  | .dequeueOp :: ops, q =>
    let r := runQueue ops (dequeue q).2
    (r.1, .vertex (dequeue q).1 :: r.2)
  | .isEmptyOp :: ops, q =>
    let r := runQueue ops q
    (r.1, .empty (isEmpty q) :: r.2)

/-- The FIFO list of the specification: `enqueue` appends at the back, `dequeue` removes
and returns the front (and returns `-1` on the empty list, leaving it empty), `isEmpty`
tests for the empty list.  The calls `ops` made in order on the list `l`. -/
def runFifo : List QueueOp → List Int → List Int × List QueueObs
  | [], l => (l, [])
  | .enqueueOp v :: ops, l =>
    let r := runFifo ops (l ++ [v])
    (r.1, .done :: r.2)
  | .dequeueOp :: ops, [] =>
    let r := runFifo ops []
    (r.1, .vertex (-1) :: r.2)
  | .dequeueOp :: ops, v :: l =>
    let r := runFifo ops l
    (r.1, .vertex v :: r.2)
  | .isEmptyOp :: ops, l =>
    let r := runFifo ops l
    (r.1, .empty l.isEmpty :: r.2)

/-- The other endpoint of an edge incident to `v`. -/
def otherEndpoint (v : Int) (e : Int × Int) : Int :=
  if e.1 = v then e.2 else e.1

/-- The friend list as the specification words it: the other endpoints of the edges
incident to `v`, the most recently inserted edge first. -/
def incidentEndpoints (v : Int) (edges : List (Int × Int)) : List Int :=
  (edges.reverse.filter (fun e => decide (e.1 = v ∨ e.2 = v))).map (otherEndpoint v)

/-- The same sequence with every self-loop `(v, v)` contributing the entry `v` twice. -/
def incidentEndpointsLoopsTwice (v : Int) (edges : List (Int × Int)) : List Int :=
  (edges.reverse.filter (fun e => decide (e.1 = v ∨ e.2 = v))).flatMap
    (fun e => if e.1 = v ∧ e.2 = v then [v, v] else [otherEndpoint v e])

/-! ## Graph store: lemmas -/

theorem setAt_same {α : Type} (a : Int → α) (i : Int) (v : α) : setAt a i v i = v := by
  simp [setAt]

theorem setAt_other {α : Type} (a : Int → α) {i j : Int} (v : α) (h : j ≠ i) :
    setAt a i v j = a j := by
  simp [setAt, h]

theorem addEdge_numVertices (g : Graph) (s d : Int) :
    (addEdge g s d).numVertices = g.numVertices := rfl

theorem addEdge_adjLists (g : Graph) (s d v : Int) :
    (addEdge g s d).adjLists v = pushedBy v (s, d) ++ g.adjLists v := by
  simp only [addEdge, setAt, pushedBy]
  split_ifs <;> simp_all

theorem foldl_addEdge_numVertices (edges : List (Int × Int)) (g : Graph) :
    (edges.foldl (fun g e => addEdge g e.1 e.2) g).numVertices = g.numVertices := by
  induction edges generalizing g with
  | nil => rfl
  | cons e rest ih => simp only [List.foldl_cons, ih, addEdge_numVertices]

theorem foldl_addEdge_adjLists (edges : List (Int × Int)) (g : Graph) (v : Int) :
    (edges.foldl (fun g e => addEdge g e.1 e.2) g).adjLists v
      = pushedAll v edges ++ g.adjLists v := by
  induction edges generalizing g with
  | nil => simp [pushedAll]
  | cons e rest ih => simp only [List.foldl_cons, ih, addEdge_adjLists, pushedAll, List.append_assoc]

theorem loadGraphFromFile_numVertices (n : Int) (edges : List (Int × Int)) :
    (loadGraphFromFile n edges).numVertices = n := by
  simp [loadGraphFromFile, foldl_addEdge_numVertices, createGraph]

theorem loadGraphFromFile_adjLists (n : Int) (edges : List (Int × Int)) (v : Int) :
    (loadGraphFromFile n edges).adjLists v = pushedAll v edges := by
  simp [loadGraphFromFile, foldl_addEdge_adjLists, createGraph]

theorem mem_pushedBy {v b : Int} {e : Int × Int} :
    b ∈ pushedBy v e ↔ (v = e.2 ∧ b = e.1) ∨ (v = e.1 ∧ b = e.2) := by
  by_cases h1 : v = e.2 <;> by_cases h2 : v = e.1 <;> simp [pushedBy, h1, h2]

theorem mem_pushedAll {v b : Int} {edges : List (Int × Int)} :
    b ∈ pushedAll v edges ↔ ∃ e ∈ edges, (v = e.2 ∧ b = e.1) ∨ (v = e.1 ∧ b = e.2) := by
  induction edges with
  | nil => simp [pushedAll]
  | cons e rest ih => simp [pushedAll, ih, mem_pushedBy, or_comm]

theorem mem_adjLists_loadGraphFromFile {n : Int} {edges : List (Int × Int)} {v b : Int} :
    b ∈ (loadGraphFromFile n edges).adjLists v
      ↔ ∃ e ∈ edges, (v = e.2 ∧ b = e.1) ∨ (v = e.1 ∧ b = e.2) := by
  rw [loadGraphFromFile_adjLists, mem_pushedAll]

theorem countFriends_eq (l : List Int) (c : Int) : countFriends l c = c + l.length := by
  induction l generalizing c with
  | nil => simp [countFriends]
  | cons a l ih => simp [countFriends, ih]; ring

/-! ## Linked queue: it holds a FIFO list -/

theorem holds_createQueue : createQueue.Holds [] :=
  ⟨[], by simp, by simp, trivial, rfl, rfl, rfl⟩

theorem linked_tail {mem : Nat → QueueNode} {a : Nat} {rest : List Nat}
    (h : Linked mem (a :: rest)) : Linked mem rest := by
  cases rest with
  | nil => trivial
  | cons b rest => exact h.2

theorem linked_head_next {mem : Nat → QueueNode} {a : Nat} {rest : List Nat}
    (h : Linked mem (a :: rest)) : (mem a).next = rest.head? := by
  cases rest with
  | nil => exact h
  | cons b rest => exact h.1

theorem linked_append {mem mem2 : Nat → QueueNode} {new : Nat} :
    ∀ (addrs : List Nat) (hne : addrs ≠ []), Linked mem addrs → addrs.Nodup →
      (∀ a ∈ addrs, a ≠ new) → (mem2 new).next = none →
      (mem2 (addrs.getLast hne)).next = some new →
      (∀ a, a ≠ addrs.getLast hne → a ≠ new → mem2 a = mem a) →
      Linked mem2 (addrs ++ [new])
  | [], hne, _, _, _, _, _, _ => absurd rfl hne
  | [a], _, _, _, _, hnew, hlast, _ => by
    simp only [List.getLast_singleton] at hlast
    exact ⟨hlast, hnew⟩
  | a :: b :: rest, _, hl, hnd, hfresh, hnew, hlast, hsame => by
    have hnd2 : (b :: rest).Nodup := (List.nodup_cons.1 hnd).2
    have ha : a ∉ b :: rest := (List.nodup_cons.1 hnd).1
    have hget : (a :: b :: rest).getLast (by simp) = (b :: rest).getLast (by simp) := by
      simp [List.getLast_cons]
    rw [hget] at hlast hsame
    have hane : a ≠ (b :: rest).getLast (by simp) := by
      intro h
      exact ha (h ▸ List.getLast_mem _)
    refine ⟨?_, ?_⟩
    · rw [hsame a hane (hfresh a (by simp))]; exact hl.1
    · exact linked_append (b :: rest) (by simp) hl.2 hnd2
        (fun x hx => hfresh x (List.mem_cons_of_mem _ hx)) hnew hlast hsame

theorem holds_enqueue {q : Queue} {l : List Int} (v : Int) (h : q.Holds l) :
    (enqueue q v).Holds (l ++ [v]) := by
  obtain ⟨addrs, hnd, hlt, hl, hf, hr, hv⟩ := h
  have hfresh : ∀ a ∈ addrs, a ≠ q.brk := fun a ha => Nat.ne_of_lt (hlt a ha)
  refine ⟨addrs ++ [q.brk], ?_, ?_, ?_, ?_, ?_, ?_⟩
  · rw [List.nodup_append]
    refine ⟨hnd, by simp, ?_⟩
    intro a ha hb
    simp only [List.mem_singleton] at hb
    exact hfresh a ha hb
  · intro a ha
    have hb : (enqueue q v).brk = q.brk + 1 := by
      unfold enqueue; cases q.rear <;> rfl
    rw [hb]
    rcases List.mem_append.1 ha with ha | ha
    · exact Nat.lt_succ_of_lt (hlt a ha)
    · simp only [List.mem_singleton] at ha; omega
  · cases addrs with
    | nil =>
      simp only [List.getLast?_nil] at hr
      simp [enqueue, hr, Linked]
    | cons a rest =>
      have hr2 : q.rear = some ((a :: rest).getLast (by simp)) := by
        rw [hr, List.getLast?_eq_getLast _ (by simp)]
      have hrne : (a :: rest).getLast (by simp) ≠ q.brk :=
        hfresh _ (List.getLast_mem _)
      apply linked_append (a :: rest) (by simp) hl hnd hfresh
      · simp [enqueue, hr2, Ne.symm hrne]
      · simp [enqueue, hr2]
      · intro x hx1 hx2
        simp [enqueue, hr2, hx1, hx2]
  · cases addrs with
    | nil =>
      simp only [List.getLast?_nil] at hr
      simp [enqueue, hr]
    | cons a rest =>
      have hr2 : q.rear = some ((a :: rest).getLast (by simp)) := by
        rw [hr, List.getLast?_eq_getLast _ (by simp)]
      simp [enqueue, hr2, hf]
  · have : (enqueue q v).rear = some q.brk := by
      unfold enqueue; cases q.rear <;> rfl
    simp [this]
  · rw [List.map_append, ← hv]
    congr 1
    · apply List.map_congr_left
      intro a ha
      have h1 := hfresh a ha
      unfold enqueue
      cases hq : q.rear with
      | none => simp [h1]
      | some r =>
        by_cases har : a = r
        · subst har; simp [h1]
        · simp [h1, har]
    · have hb : ((enqueue q v).mem q.brk).vertex = v := by
        unfold enqueue
        cases hq : q.rear with
        | none => simp
        | some r =>
          by_cases har : q.brk = r
          · simp [har]
          · simp [har]
      simp [hb]

theorem holds_dequeue {q : Queue} {v : Int} {l : List Int} (h : q.Holds (v :: l)) :
    (dequeue q).1 = v ∧ (dequeue q).2.Holds l := by
  obtain ⟨addrs, hnd, hlt, hl, hf, hr, hv⟩ := h
  cases addrs with
  | nil => simp at hv
  | cons a rest =>
    simp only [List.map_cons, List.cons.injEq] at hv
    simp only [List.head?_cons] at hf
    have hnext := linked_head_next hl
    refine ⟨by simp [dequeue, hf, hv.1], rest, (List.nodup_cons.1 hnd).2, ?_, ?_, ?_, ?_, ?_⟩
    · intro x hx
      have := hlt x (List.mem_cons_of_mem _ hx)
      simpa [dequeue, hf] using this
    · simpa [dequeue, hf] using linked_tail hl
    · simp [dequeue, hf, hnext]
    · cases rest with
      | nil => simp [dequeue, hf, hnext]
      | cons b rest =>
        simp only [List.head?_cons] at hnext
        simp [dequeue, hf, hnext, hr, List.getLast?_cons_cons]
    · simpa [dequeue, hf] using hv.2

theorem holds_nil_dequeue {q : Queue} (h : q.Holds []) : dequeue q = (-1, q) := by
  obtain ⟨addrs, _, _, _, hf, _, hv⟩ := h
  have : addrs = [] := by simpa using hv
  subst this
  simp only [List.head?_nil] at hf
  simp [dequeue, hf]

theorem holds_isEmpty {q : Queue} {l : List Int} (h : q.Holds l) :
    isEmpty q = true ↔ l = [] := by
  obtain ⟨addrs, _, _, _, hf, _, hv⟩ := h
  cases addrs with
  | nil => simp [isEmpty, hf, ← hv]
  | cons a rest => simp [isEmpty, hf, ← hv]

/-! ## Breadth-first search: the invariant -/

theorem bfsInv_init {g : Graph} {src dest : Int} (h0 : 0 ≤ src) (hn : src < g.numVertices)
    (hne : src ≠ dest) :
    BfsInv g src dest (fun _ => 0) (setAt (fun _ => false) src true) (fun _ => -1) false [src] := by
  have hv : ∀ v, setAt (fun _ => false) src true v = true → v = src := by
    intro v hv
    by_contra h
    simp [setAt, h] at hv
  refine ⟨?_, ?_, rfl, rfl, ?_, ?_, ?_, ?_, ?_, ?_, ?_⟩
  · intro v h; rw [hv v h]; exact ⟨h0, hn⟩
  · simp [setAt]
  · intro v h hne2; exact absurd (hv v h) hne2
  · intro a ha; simp only [List.mem_singleton] at ha; simp [setAt, ha]
  · simp
  · intro v _ a _; simp
  · intro a h hnot; simp [hv a h] at hnot
  · intro a b _ _ _; simp
  · simp [setAt, Ne.symm hne]

theorem bfsInv_pop {g : Graph} {src dest : Int} {lvl : Int → Nat} {visited : Int → Bool}
    {parent : Int → Int} {found : Bool} {c : Int} {ql : List Int}
    (inv : BfsInv g src dest lvl visited parent found (c :: ql))
    (hc : ∀ b ∈ g.adjLists c, visited b = true) :
    BfsInv g src dest lvl visited parent found ql := by
  refine ⟨inv.range, inv.src_visited, inv.src_parent, inv.lvl_src, inv.parent_ok, ?_, ?_, ?_, ?_,
    inv.edge_lvl, inv.found_iff⟩
  · intro a ha; exact inv.todo_visited a (List.mem_cons_of_mem _ ha)
  · exact (List.pairwise_cons.1 inv.todo_sorted).2
  · intro v hv a ha; exact inv.lvl_le v hv a (List.mem_cons_of_mem _ ha)
  · intro a ha hnot b hb
    by_cases hac : a = c
    · subst hac; exact hc b hb
    · exact inv.closed a ha (by simp [hac, hnot]) b hb

theorem bfsInv_head_le {g : Graph} {src dest : Int} {lvl : Int → Nat} {visited : Int → Bool}
    {parent : Int → Int} {found : Bool} {c : Int} {ql : List Int}
    (inv : BfsInv g src dest lvl visited parent found (c :: ql)) :
    ∀ a ∈ c :: ql, lvl c ≤ lvl a := by
  intro a ha
  rcases List.mem_cons.1 ha with h | h
  · rw [h]
  · exact (List.pairwise_cons.1 inv.todo_sorted).1 a h

theorem bfsInv_discover {g : Graph} (wf : g.NeighborsInRange) {src dest : Int}
    {lvl : Int → Nat} {visited : Int → Bool} {parent : Int → Int} {found : Bool}
    {c b : Int} {ql : List Int}
    (inv : BfsInv g src dest lvl visited parent false (c :: ql))
    (hb : visited b = false) (hbc : b ∈ g.adjLists c) (hf : found = true ↔ b = dest) :
    BfsInv g src dest (setAt lvl b (lvl c + 1)) (setAt visited b true) (setAt parent b c)
      found (c :: (ql ++ [b])) := by
  have hcv : visited c = true := inv.todo_visited c (by simp)
  have hne : ∀ v, visited v = true → v ≠ b := by
    intro v hv h; rw [h, hb] at hv; exact Bool.false_ne_true hv
  have hold : ∀ v, setAt visited b true v = true → v ≠ b → visited v = true := by
    intro v hv h; simpa [setAt, h] using hv
  have hnew : ∀ v, visited v = true → setAt visited b true v = true := by
    intro v hv; simp [setAt, hne v hv, hv]
  have hlvl : ∀ v, v ≠ b → setAt lvl b (lvl c + 1) v = lvl v := fun v h => setAt_other _ _ h
  have hlvlb : setAt lvl b (lvl c + 1) b = lvl c + 1 := setAt_same _ _ _
  have hcb : c ≠ b := hne c hcv
  have hhead := bfsInv_head_le inv
  have hmem : ∀ a, a ∈ c :: (ql ++ [b]) ↔ a ∈ c :: ql ∨ a = b := by
    intro a; simp [or_assoc]
  refine ⟨?_, ?_, ?_, ?_, ?_, ?_, ?_, ?_, ?_, ?_, ?_⟩
  · intro v hv
    by_cases h : v = b
    · rw [h]; exact wf c b (inv.range c hcv).1 (inv.range c hcv).2 hbc
    · exact inv.range v (hold v hv h)
  · exact hnew src inv.src_visited
  · rw [setAt_other _ _ (hne src inv.src_visited)]; exact inv.src_parent
  · rw [hlvl src (hne src inv.src_visited)]; exact inv.lvl_src
  · intro v hv hvs
    by_cases h : v = b
    · subst h
      rw [setAt_same, hlvlb, hlvl c hcb]
      exact ⟨hnew c hcv, hbc, rfl⟩
    · have hv2 := hold v hv h
      obtain ⟨p1, p2, p3⟩ := inv.parent_ok v hv2 hvs
      rw [setAt_other _ _ h, hlvl v h, hlvl _ (hne _ p1)]
      exact ⟨hnew _ p1, p2, p3⟩
  · intro a ha
    rcases (hmem a).1 ha with h | h
    · exact hnew a (inv.todo_visited a h)
    · rw [h]; simp [setAt]
  · have e : c :: (ql ++ [b]) = (c :: ql) ++ [b] := rfl
    rw [e, List.pairwise_append]
    refine ⟨?_, by simp, ?_⟩
    · refine List.Pairwise.imp_of_mem ?_ inv.todo_sorted
      intro x y hx hy hxy
      rw [hlvl x (hne x (inv.todo_visited x hx)), hlvl y (hne y (inv.todo_visited y hy))]
      exact hxy
    · intro x hx y hy
      simp only [List.mem_singleton] at hy
      rw [hy, hlvlb, hlvl x (hne x (inv.todo_visited x hx))]
      exact inv.lvl_le x (inv.todo_visited x hx) c (by simp)
  · intro v hv a ha
    by_cases h : v = b
    · rw [h, hlvlb]
      rcases (hmem a).1 ha with h2 | h2
      · rw [hlvl a (hne a (inv.todo_visited a h2))]
        have := hhead a h2
        omega
      · rw [h2, hlvlb]; omega
    · rw [hlvl v h]
      have hv2 := hold v hv h
      rcases (hmem a).1 ha with h2 | h2
      · rw [hlvl a (hne a (inv.todo_visited a h2))]
        exact inv.lvl_le v hv2 a h2
      · rw [h2, hlvlb]
        have := inv.lvl_le v hv2 c (by simp)
        omega
  · intro a ha hnot x hx
    have hab : a ≠ b := fun h => hnot ((hmem a).2 (Or.inr h))
    have hnot2 : a ∉ c :: ql := fun h => hnot ((hmem a).2 (Or.inl h))
    exact hnew x (inv.closed a (hold a ha hab) hnot2 x hx)
  · intro a x ha hx hax
    by_cases h1 : x = b
    · rw [h1, hlvlb]
      by_cases h2 : a = b
      · rw [h2, hlvlb]; omega
      · rw [hlvl a h2]
        have ha2 := hold a ha h2
        have hin : a ∈ c :: ql := by
          by_contra hnot
          have := inv.closed a ha2 hnot b (h1 ▸ hax)
          rw [hb] at this
          exact Bool.false_ne_true this
        have := hhead a hin
        omega
    · rw [hlvl x h1]
      have hx2 := hold x hx h1
      by_cases h2 : a = b
      · rw [h2, hlvlb]
        have := inv.lvl_le x hx2 c (by simp)
        omega
      · rw [hlvl a h2]
        exact inv.edge_lvl a x (hold a ha h2) hx2 hax
  · have hd : visited dest = false := by
      cases h : visited dest with
      | false => rfl
      | true => exact absurd (inv.found_iff.2 h) Bool.false_ne_true
    rw [hf]
    constructor
    · intro h; rw [← h]; simp [setAt]
    · intro h
      by_contra hne2
      have := hold dest h (Ne.symm hne2)
      rw [hd] at this
      exact Bool.false_ne_true this

/-! ## Breadth-first search: the loops -/

theorem unvisitedCount_setAt {n : Int} {visited : Int → Bool} {b : Int} (h0 : 0 ≤ b)
    (hn : b < n) (hb : visited b = false) :
    unvisitedCount n (setAt visited b true) + 1 = unvisitedCount n visited := by
  unfold unvisitedCount
  have hmem : b ∈ (Finset.Ico (0 : Int) n).filter (fun i => visited i = false) := by
    simp [h0, hn, hb]
  have e : (Finset.Ico (0 : Int) n).filter (fun i => setAt visited b true i = false)
      = ((Finset.Ico (0 : Int) n).filter (fun i => visited i = false)).erase b := by
    ext i
    by_cases h : i = b
    · simp [setAt, h]
    · simp [setAt, h]
  rw [e, Finset.card_erase_of_mem hmem]
  have := Finset.card_pos.2 ⟨b, hmem⟩
  omega

theorem unvisitedCount_init {n src : Int} (h0 : 0 ≤ src) (hn : src < n) :
    unvisitedCount n (setAt (fun _ => false) src true) + 1 = n.toNat := by
  rw [unvisitedCount_setAt h0 hn rfl]
  simp [unvisitedCount]

theorem expandNeighbors_inv {g : Graph} (wf : g.NeighborsInRange) {src dest c : Int} :
    ∀ (temp : List Int) (s : BfsState) (lvl : Int → Nat) (ql : List Int),
      BfsInv g src dest lvl s.visited s.parent false (c :: ql) → s.found = false →
      s.queue.Holds ql → (∀ b ∈ temp, b ∈ g.adjLists c) →
      (∀ b ∈ g.adjLists c, s.visited b = true ∨ b ∈ temp) →
      ∃ lvl2 todo2,
        BfsInv g src dest lvl2 (expandNeighbors dest c temp s).visited
          (expandNeighbors dest c temp s).parent (expandNeighbors dest c temp s).found todo2 ∧
        ((expandNeighbors dest c temp s).found = false →
          (expandNeighbors dest c temp s).queue.Holds todo2 ∧
          unvisitedCount g.numVertices (expandNeighbors dest c temp s).visited + todo2.length
            ≤ unvisitedCount g.numVertices s.visited + ql.length)
  | [], s, lvl, ql, inv, hf, hq, _, hpend => by
    have hall : ∀ b ∈ g.adjLists c, s.visited b = true := by
      intro b hb
      rcases hpend b hb with h | h
      · exact h
      · simp at h
    refine ⟨lvl, ql, ?_, ?_⟩
    · simp only [expandNeighbors, hf]; exact bfsInv_pop inv hall
    · intro _; exact ⟨hq, le_refl _⟩
  | b :: temp, s, lvl, ql, inv, hf, hq, hsub, hpend => by
    cases hb : s.visited b with
    | true =>
      have e : expandNeighbors dest c (b :: temp) s = expandNeighbors dest c temp s := by
        simp [expandNeighbors, hb]
      rw [e]
      apply expandNeighbors_inv wf temp s lvl ql inv hf hq
      · intro x hx; exact hsub x (List.mem_cons_of_mem _ hx)
      · intro x hx
        rcases hpend x hx with h | h
        · exact Or.inl h
        · rcases List.mem_cons.1 h with h2 | h2
          · rw [h2]; exact Or.inl hb
          · exact Or.inr h2
    | false =>
      have hbc : b ∈ g.adjLists c := hsub b (by simp)
      have hcv : s.visited c = true := inv.todo_visited c (by simp)
      have hbr := wf c b (inv.range c hcv).1 (inv.range c hcv).2 hbc
      have hcount := unvisitedCount_setAt hbr.1 hbr.2 hb
      by_cases hd : b = dest
      · have e : expandNeighbors dest c (b :: temp) s =
            { visited := setAt s.visited b true, parent := setAt s.parent b c,
              queue := enqueue s.queue b, found := true } := by
          rw [← hd]; simp [expandNeighbors, hb]
        rw [e]
        refine ⟨setAt lvl b (lvl c + 1), c :: (ql ++ [b]), ?_, ?_⟩
        · exact bfsInv_discover wf inv hb hbc (by simp [hd])
        · intro h; simp at h
      · have e : expandNeighbors dest c (b :: temp) s =
            expandNeighbors dest c temp
              { visited := setAt s.visited b true, parent := setAt s.parent b c,
                queue := enqueue s.queue b, found := s.found } := by
          simp [expandNeighbors, hb, hd]
        rw [e]
        have hfd : false = true ↔ b = dest := by simp [hd]
        have inv2 := bfsInv_discover wf inv hb hbc hfd
        obtain ⟨lvl2, todo2, i2, h2⟩ := expandNeighbors_inv wf temp
          { visited := setAt s.visited b true, parent := setAt s.parent b c,
            queue := enqueue s.queue b, found := s.found }
          (setAt lvl b (lvl c + 1)) (ql ++ [b]) inv2 hf (holds_enqueue b hq)
          (fun x hx => hsub x (List.mem_cons_of_mem _ hx))
          (by
            intro x hx
            rcases hpend x hx with h | h
            · left
              have : x ≠ b := by
                intro hxb; rw [hxb, hb] at h; exact Bool.false_ne_true h
              simp [setAt, this, h]
            · rcases List.mem_cons.1 h with h3 | h3
              · left; simp [setAt, h3]
              · exact Or.inr h3)
        refine ⟨lvl2, todo2, i2, ?_⟩
        intro hfound
        obtain ⟨hq2, hc2⟩ := h2 hfound
        refine ⟨hq2, ?_⟩
        simp only [List.length_append, List.length_singleton] at hc2
        omega

theorem bfsLoop_inv {g : Graph} (wf : g.NeighborsInRange) {src dest : Int} :
    ∀ (fuel : Nat) (s : BfsState) (lvl : Int → Nat) (todo : List Int),
      BfsInv g src dest lvl s.visited s.parent s.found todo →
      (s.found = false →
        s.queue.Holds todo ∧ unvisitedCount g.numVertices s.visited + todo.length ≤ fuel) →
      ∃ s2 lvl2 todo2, bfsLoop g dest fuel s = some s2 ∧
        BfsInv g src dest lvl2 s2.visited s2.parent s2.found todo2 ∧
        (s2.found = false → todo2 = []) := by
  intro fuel
  induction fuel with
  | zero =>
    intro s lvl todo inv h
    cases hf : s.found with
    | true =>
      refine ⟨s, lvl, todo, ?_, inv, ?_⟩
      · unfold bfsLoop; simp [hf]
      · intro h2; rw [hf] at h2; exact absurd h2 (by simp)
    | false =>
      obtain ⟨hq, hc⟩ := h hf
      have ht : todo = [] := by
        cases todo with
        | nil => rfl
        | cons a l => simp at hc
      refine ⟨s, lvl, todo, ?_, inv, fun _ => ht⟩
      have := (holds_isEmpty hq).2 ht
      unfold bfsLoop; simp [this]
  | succ fuel ih =>
    intro s lvl todo inv h
    cases hf : s.found with
    | true =>
      refine ⟨s, lvl, todo, ?_, inv, ?_⟩
      · unfold bfsLoop; simp [hf]
      · intro h2; rw [hf] at h2; exact absurd h2 (by simp)
    | false =>
      obtain ⟨hq, hc⟩ := h hf
      cases todo with
      | nil =>
        refine ⟨s, lvl, [], ?_, inv, fun _ => rfl⟩
        have := (holds_isEmpty hq).2 rfl
        unfold bfsLoop; simp [this]
      | cons c ql =>
        have hne : isEmpty s.queue = false := by
          cases he : isEmpty s.queue with
          | false => rfl
          | true => exact absurd ((holds_isEmpty hq).1 he) (by simp)
        obtain ⟨hd1, hd2⟩ := holds_dequeue hq
        have e : bfsLoop g dest (fuel + 1) s =
            bfsLoop g dest fuel (expandNeighbors dest c (g.adjLists c)
              { s with queue := (dequeue s.queue).2 }) := by
          rw [bfsLoop]; simp [hne, hf, hd1]
        rw [e]
        rw [hf] at inv
        obtain ⟨lvl2, todo2, i2, h2⟩ := expandNeighbors_inv wf (g.adjLists c)
          { s with queue := (dequeue s.queue).2 } lvl ql inv hf hd2 (fun b hb => hb)
          (fun b hb => Or.inr hb)
        apply ih _ lvl2 todo2 i2
        intro hfound
        obtain ⟨hq2, hc2⟩ := h2 hfound
        refine ⟨hq2, ?_⟩
        simp only [List.length_cons] at hc
        have hc3 : unvisitedCount g.numVertices
            ({ s with queue := (dequeue s.queue).2 } : BfsState).visited
            = unvisitedCount g.numVertices s.visited := rfl
        omega

/-! ## Breadth-first search: what the final state gives -/

theorem reconstructPath_spec {g : Graph} {src dest : Int} {lvl : Int → Nat}
    {visited : Int → Bool} {parent : Int → Int} {found : Bool} {todo : List Int}
    (inv : BfsInv g src dest lvl visited parent found todo) :
    ∀ (k : Nat) (v : Int), visited v = true → lvl v = k → ∀ fuel, k + 1 ≤ fuel →
      ∃ path, reconstructPath parent fuel v = some path ∧ path.length = k + 1 ∧
        path.head? = some v ∧ path.getLast? = some src ∧
        List.Chain' (fun a b => a ∈ g.adjLists b) path ∧
        (∀ x ∈ path, visited x = true ∧ lvl x ≤ k) ∧
        path.Pairwise (fun a b => lvl b < lvl a) := by
  intro k
  induction k with
  | zero =>
    intro v hv hl fuel hfuel
    have hvs : v = src := by
      by_contra h
      have := (inv.parent_ok v hv h).2.2
      omega
    subst hvs
    obtain ⟨f, rfl⟩ : ∃ f, fuel = f + 1 := ⟨fuel - 1, by omega⟩
    have hne : v ≠ -1 := by
      have := (inv.range v hv).1
      omega
    have e1 : reconstructPath parent f (-1) = some [] := by
      unfold reconstructPath; simp
    have e : reconstructPath parent (f + 1) v = some [v] := by
      rw [reconstructPath]; simp [hne, inv.src_parent, e1]
    refine ⟨[v], e, rfl, rfl, rfl, by simp, ?_, by simp⟩
    intro x hx
    simp only [List.mem_singleton] at hx
    rw [hx]; exact ⟨hv, by omega⟩
  | succ k ih =>
    intro v hv hl fuel hfuel
    have hvs : v ≠ src := by
      intro h
      rw [h, inv.lvl_src] at hl
      omega
    obtain ⟨p1, p2, p3⟩ := inv.parent_ok v hv hvs
    obtain ⟨f, rfl⟩ : ∃ f, fuel = f + 1 := ⟨fuel - 1, by omega⟩
    obtain ⟨path, q1, q2, q3, q4, q5, q6, q7⟩ := ih (parent v) p1 (by omega) f (by omega)
    have hne : v ≠ -1 := by
      have := (inv.range v hv).1
      omega
    have e : reconstructPath parent (f + 1) v = some (v :: path) := by
      rw [reconstructPath]; simp [hne, q1]
    refine ⟨v :: path, e, by simp [q2], rfl, ?_, ?_, ?_, ?_⟩
    · cases path with
      | nil => simp at q2
      | cons a l => simpa [List.getLast?_cons_cons] using q4
    · rw [List.chain'_cons']
      refine ⟨?_, q5⟩
      intro y hy
      rw [q3] at hy
      simp only [Option.mem_def, Option.some.injEq] at hy
      rw [← hy]; exact p2
    · intro x hx
      rcases List.mem_cons.1 hx with h | h
      · rw [h]; exact ⟨hv, by omega⟩
      · exact ⟨(q6 x h).1, by have := (q6 x h).2; omega⟩
    · rw [List.pairwise_cons]
      refine ⟨?_, q7⟩
      intro x hx
      have := (q6 x hx).2
      omega

theorem walk_of_visited {g : Graph} {src dest : Int} {lvl : Int → Nat}
    {visited : Int → Bool} {parent : Int → Int} {found : Bool} {todo : List Int}
    (inv : BfsInv g src dest lvl visited parent found todo) :
    ∀ (k : Nat) (v : Int), visited v = true → lvl v = k → WalkOfLength g src v k := by
  intro k
  induction k with
  | zero =>
    intro v hv hl
    have hvs : v = src := by
      by_contra h
      have := (inv.parent_ok v hv h).2.2
      omega
    rw [hvs]; exact WalkOfLength.start
  | succ k ih =>
    intro v hv hl
    have hvs : v ≠ src := by
      intro h
      rw [h, inv.lvl_src] at hl
      omega
    obtain ⟨p1, p2, p3⟩ := inv.parent_ok v hv hvs
    exact WalkOfLength.step (ih (parent v) p1 (by omega)) p2

theorem walk_lower_bound {g : Graph} {src dest : Int} {lvl : Int → Nat}
    {visited : Int → Bool} {parent : Int → Int} {found : Bool} {todo : List Int}
    (inv : BfsInv g src dest lvl visited parent found todo) {w : Int} {k : Nat}
    (hw : WalkOfLength g src w k) :
    (visited w = true ∧ lvl w ≤ k) ∨ ∃ a ∈ todo, lvl a + 1 ≤ k := by
  induction hw with
  | start => exact Or.inl ⟨inv.src_visited, by rw [inv.lvl_src]⟩
  | @step a b k _ hab ih =>
    rcases ih with ⟨hv, hl⟩ | ⟨x, hx, hl⟩
    · by_cases ha : a ∈ todo
      · exact Or.inr ⟨a, ha, by omega⟩
      · have hb := inv.closed a hv ha b hab
        have := inv.edge_lvl a b hv hb hab
        exact Or.inl ⟨hb, by omega⟩
    · exact Or.inr ⟨x, hx, by omega⟩

theorem visited_lvl_le_of_walk {g : Graph} {src dest : Int} {lvl : Int → Nat}
    {visited : Int → Bool} {parent : Int → Int} {found : Bool} {todo : List Int}
    (inv : BfsInv g src dest lvl visited parent found todo) {w : Int} {k : Nat}
    (hv : visited w = true) (hw : WalkOfLength g src w k) : lvl w ≤ k := by
  rcases walk_lower_bound inv hw with ⟨_, hl⟩ | ⟨x, hx, hl⟩
  · exact hl
  · have := inv.lvl_le w hv x hx
    omega

theorem length_le_of_nodup_range {n : Int} {l : List Int} (hnd : l.Nodup)
    (hr : ∀ x ∈ l, 0 ≤ x ∧ x < n) : l.length ≤ n.toNat := by
  have h1 : l.toFinset ⊆ Finset.Ico (0 : Int) n := by
    intro x hx
    have := hr x (List.mem_toFinset.1 hx)
    simp [this.1, this.2]
  have h2 := Finset.card_le_card h1
  rw [List.toFinset_card_of_nodup hnd] at h2
  simpa using h2

theorem bfsLoop_init {g : Graph} (wf : g.NeighborsInRange) {src dest : Int} {fuel : Nat}
    (hs0 : 0 ≤ src) (hsn : src < g.numVertices) (hne : src ≠ dest)
    (hfuel : g.numVertices ≤ fuel) :
    ∃ s lvl todo, bfsLoop g dest fuel (bfsInit src) = some s ∧
      BfsInv g src dest lvl s.visited s.parent s.found todo ∧ (s.found = false → todo = []) := by
  apply bfsLoop_inv wf fuel (bfsInit src) (fun _ => 0) [src] (bfsInv_init hs0 hsn hne)
  intro _
  refine ⟨holds_enqueue src holds_createQueue, ?_⟩
  have h := unvisitedCount_init hs0 hsn
  simp only [bfsInit, List.length_singleton]
  omega

theorem findConnection_search {g : Graph} (wf : g.NeighborsInRange) {src dest : Int}
    {fuel : Nat} (hs0 : 0 ≤ src) (hsn : src < g.numVertices) (hd0 : 0 ≤ dest)
    (hdn : dest < g.numVertices) (hne : src ≠ dest) (hfuel : g.numVertices ≤ fuel) :
    (∃ path, findConnection fuel g src dest
          = some (.Connected src dest path (printLoop path (path.length - 1))) ∧
        path.head? = some dest ∧ path.getLast? = some src ∧
        List.Chain' (fun a b => a ∈ g.adjLists b) path ∧
        (∀ x ∈ path, 0 ≤ x ∧ x < g.numVertices) ∧ path.Nodup ∧
        WalkOfLength g src dest (path.length - 1) ∧
        ∀ k, WalkOfLength g src dest k → path.length - 1 ≤ k) ∨
    (findConnection fuel g src dest = some (.NotConnected src dest) ∧
      ¬ Reachable g src dest) := by
  obtain ⟨s, lvl, todo, hloop, inv, hdone⟩ := bfsLoop_init wf hs0 hsn hne hfuel
  have hcond : ¬ (src < 0 ∨ src ≥ g.numVertices ∨ dest < 0 ∨ dest ≥ g.numVertices) := by
    omega
  cases hf : s.found with
  | true =>
    left
    have hv : s.visited dest = true := inv.found_iff.1 hf
    obtain ⟨p0, _, a2, _, _, _, a6, a7⟩ :=
      reconstructPath_spec inv (lvl dest) dest hv rfl (lvl dest + 1) (le_refl _)
    have hnd0 : p0.Nodup := a7.imp (fun h heq => by rw [heq] at h; exact lt_irrefl _ h)
    have hlen := length_le_of_nodup_range hnd0 (fun x hx => inv.range x (a6 x hx).1)
    obtain ⟨path, b1, b2, b3, b4, b5, b6, b7⟩ :=
      reconstructPath_spec inv (lvl dest) dest hv rfl fuel (by omega)
    refine ⟨path, ?_, b3, b4, b5, fun x hx => inv.range x (b6 x hx).1,
      b7.imp (fun h heq => by rw [heq] at h; exact lt_irrefl _ h), ?_, ?_⟩
    · rw [findConnection, if_neg hcond, if_neg hne]
      simp [hloop, hf, b1]
    · rw [b2]; exact walk_of_visited inv (lvl dest) dest hv rfl
    · intro k hk
      have := visited_lvl_le_of_walk inv hv hk
      omega
  | false =>
    right
    constructor
    · rw [findConnection, if_neg hcond, if_neg hne]
      simp [hloop, hf]
    · rintro ⟨k, hk⟩
      have ht := hdone hf
      subst ht
      rcases walk_lower_bound inv hk with ⟨hv, _⟩ | ⟨x, hx, _⟩
      · have := inv.found_iff.2 hv
        rw [hf] at this
        exact Bool.false_ne_true this
      · simp at hx

theorem neighborsInRange_loadGraphFromFile {n : Int} {edges : List (Int × Int)}
    (h : InRangeEdges n edges) : (loadGraphFromFile n edges).NeighborsInRange := by
  intro v b _ _ hb
  rw [loadGraphFromFile_numVertices]
  obtain ⟨e, he, h1 | h1⟩ := mem_adjLists_loadGraphFromFile.1 hb
  · rw [h1.2]; exact (h e he).1
  · rw [h1.2]; exact (h e he).2

theorem findConnection_search_load {n : Int} {edges : List (Int × Int)} {src dest : Int}
    (fuel : Nat) (hedges : InRangeEdges n edges) (hsrc : 0 ≤ src ∧ src < n)
    (hdest : 0 ≤ dest ∧ dest < n) (hne : src ≠ dest) (hfuel : n ≤ fuel) :
    (∃ path, findConnection fuel (loadGraphFromFile n edges) src dest
          = some (.Connected src dest path (printLoop path (path.length - 1))) ∧
        path.head? = some dest ∧ path.getLast? = some src ∧
        List.Chain' (fun a b => a ∈ (loadGraphFromFile n edges).adjLists b) path ∧
        (∀ x ∈ path, 0 ≤ x ∧ x < (loadGraphFromFile n edges).numVertices) ∧ path.Nodup ∧
        WalkOfLength (loadGraphFromFile n edges) src dest (path.length - 1) ∧
        ∀ k, WalkOfLength (loadGraphFromFile n edges) src dest k → path.length - 1 ≤ k) ∨
    (findConnection fuel (loadGraphFromFile n edges) src dest = some (.NotConnected src dest) ∧
      ¬ Reachable (loadGraphFromFile n edges) src dest) := by
  have hN := loadGraphFromFile_numVertices n edges
  exact findConnection_search (neighborsInRange_loadGraphFromFile hedges) hsrc.1
    (by rw [hN]; exact hsrc.2) hdest.1 (by rw [hN]; exact hdest.2) hne
    (by rw [hN]; exact hfuel)

theorem printLoop_append (l r : List Int) :
    ∀ i, i < l.length → printLoop (l ++ r) i = printLoop l i := by
  intro i
  induction i with
  | zero => intro _; rfl
  | succ i ih =>
    intro h
    simp only [printLoop]
    rw [ih (by omega), List.getD_append _ _ _ _ h, List.getD_append _ _ _ _ (by omega)]

theorem printLoop_eq_zip (l : List Int) :
    printLoop l (l.length - 1) = l.reverse.zip l.reverse.tail := by
  induction l using List.reverseRecOn with
  | nil => rfl
  | append_singleton l x ih =>
    rcases List.eq_nil_or_concat l with h | ⟨L, y, h⟩
    · subst h; rfl
    · rw [List.concat_eq_append] at h
      subst h
      have e1 : (L ++ [y] ++ [x]).length - 1 = L.length + 1 := by simp
      have e2 : (L ++ [y]).length - 1 = L.length := by simp
      rw [e2] at ih
      rw [e1]
      simp only [printLoop]
      rw [printLoop_append (L ++ [y]) [x] L.length (by simp), ih]
      have g1 : (L ++ [y] ++ [x]).getD (L.length + 1) 0 = x := by
        rw [List.getD_append_right _ _ _ _ (by simp)]; simp
      have g2 : (L ++ [y] ++ [x]).getD L.length 0 = y := by
        rw [List.append_assoc, List.getD_append_right _ _ _ _ (le_refl _)]; simp
      rw [g1, g2]
      simp

theorem length_pushedBy (v : Int) (e : Int × Int) :
    (pushedBy v e).length
      = (if e.1 = v ∨ e.2 = v then 1 else 0) + (if e.1 = v ∧ e.2 = v then 1 else 0) := by
  simp only [pushedBy, @eq_comm _ v]
  by_cases h1 : e.1 = v <;> by_cases h2 : e.2 = v <;> simp [h1, h2]

theorem length_pushedAll (v : Int) (edges : List (Int × Int)) :
    (pushedAll v edges).length = incidentCount v edges + selfLoopCount v edges := by
  induction edges with
  | nil => rfl
  | cons e rest ih =>
    simp only [pushedAll, List.length_append, ih, length_pushedBy, incidentCount, selfLoopCount,
      List.filter_cons]
    by_cases h1 : e.1 = v ∨ e.2 = v <;> by_cases h2 : e.1 = v ∧ e.2 = v <;>
      simp [h1, h2] <;> omega

theorem displayFriendList_in_range (g : Graph) (v : Int) (h0 : 0 ≤ v) (hn : v < g.numVertices) :
    displayFriendList g v = .friends v (g.adjLists v).length (g.adjLists v) := by
  have hcond : ¬ (v < 0 ∨ v ≥ g.numVertices) := by omega
  rw [displayFriendList, if_neg hcond]
  simp only [countFriends_eq, zero_add]
  cases h : g.adjLists v with
  | nil => simp
  | cons a l => simp

/-! ## Friend list order, printed order, queue runs -/

theorem pushedBy_eq_entries (v : Int) (e : Int × Int) :
    pushedBy v e
      = ([e].filter (fun e => decide (e.1 = v ∨ e.2 = v))).flatMap
          (fun e => if e.1 = v ∧ e.2 = v then [v, v] else [otherEndpoint v e]) := by
  simp only [pushedBy, @eq_comm _ v, otherEndpoint]
  by_cases h1 : e.1 = v <;> by_cases h2 : e.2 = v <;> simp [h1, h2, List.filter_cons]

theorem pushedAll_eq_incidentEndpointsLoopsTwice (v : Int) (edges : List (Int × Int)) :
    pushedAll v edges = incidentEndpointsLoopsTwice v edges := by
  induction edges with
  | nil => rfl
  | cons e rest ih =>
    rw [pushedAll, ih, pushedBy_eq_entries]
    simp only [incidentEndpointsLoopsTwice, List.reverse_cons, List.filter_append,
      List.flatMap_append]

theorem printLoop_getLast (path : List Int) :
    ∀ i, (printLoop path (i + 1)).getLast? = some (path.getD 1 0, path.getD 0 0) := by
  intro i
  induction i with
  | zero => rfl
  | succ i ih =>
    rw [printLoop]
    rw [printLoop] at ih ⊢
    rw [List.getLast?_cons_cons]
    exact ih

theorem runQueue_refines :
    ∀ (ops : List QueueOp) (q : Queue) (l : List Int), q.Holds l →
      (runQueue ops q).2 = (runFifo ops l).2 ∧ (runQueue ops q).1.Holds (runFifo ops l).1
  | [], _, _, h => ⟨rfl, h⟩
  | .enqueueOp v :: ops, q, l, h => by
    have ih := runQueue_refines ops (enqueue q v) (l ++ [v]) (holds_enqueue v h)
    simp only [runQueue, runFifo]
    exact ⟨by rw [ih.1], ih.2⟩
  | .dequeueOp :: ops, q, [], h => by
    have e := holds_nil_dequeue h
    have ih := runQueue_refines ops q [] h
    simp only [runQueue, runFifo, e]
    exact ⟨by rw [ih.1], ih.2⟩
  | .dequeueOp :: ops, q, v :: l, h => by
    obtain ⟨e1, e2⟩ := holds_dequeue h
    have ih := runQueue_refines ops (dequeue q).2 l e2
    simp only [runQueue, runFifo, e1]
    exact ⟨by rw [ih.1], ih.2⟩
  | .isEmptyOp :: ops, q, l, h => by
    have ih := runQueue_refines ops q l h
    have e : isEmpty q = l.isEmpty := by
      cases l with
      | nil => simpa using (holds_isEmpty h).2 rfl
      | cons a t =>
        cases hq : isEmpty q with
        | false => rfl
        | true => exact absurd ((holds_isEmpty h).1 hq) (by simp)
    simp only [runQueue, runFifo, e]
    exact ⟨by rw [ih.1], ih.2⟩

theorem flatMap_entries_eq_map (v : Int) :
    ∀ (l : List (Int × Int)), (∀ e ∈ l, ¬ (e.1 = v ∧ e.2 = v)) →
      l.flatMap (fun e => if e.1 = v ∧ e.2 = v then [v, v] else [otherEndpoint v e])
        = l.map (otherEndpoint v)
  | [], _ => rfl
  | e :: l, h => by
    have h1 : ¬ (e.1 = v ∧ e.2 = v) := h e (by simp)
    have ih := flatMap_entries_eq_map v l (fun x hx => h x (List.mem_cons_of_mem _ hx))
    rw [List.flatMap_cons, ih, if_neg h1]
    rfl

theorem getD_last_of_getLast? {l : List Int} {x : Int} (h : l.getLast? = some x) :
    l.getD (l.length - 1) 0 = x := by
  rw [List.getLast?_eq_getElem?] at h
  rw [List.getD_eq_getElem?_getD, h]
  rfl

theorem getD_zero_of_head? {l : List Int} {x : Int} (h : l.head? = some x) :
    l.getD 0 0 = x := by
  cases l with
  | nil => simp at h
  | cons a t =>
    simp only [List.head?_cons, Option.some.injEq] at h
    simp [h]

/-! ## The recorded search loop -/

theorem expandNeighborsTrace_fst (dest c : Int) :
    ∀ (temp : List Int) (s : BfsState),
      (expandNeighborsTrace dest c temp s).1 = expandNeighbors dest c temp s
  | [], _ => rfl
  | b :: temp, s => by
    rw [expandNeighborsTrace, expandNeighbors]
    split
    · split
      · rfl
      · exact expandNeighborsTrace_fst dest c temp _
    · exact expandNeighborsTrace_fst dest c temp s

theorem bfsLoopTrace_fst (g : Graph) (dest : Int) :
    ∀ (fuel : Nat) (s : BfsState),
      (bfsLoopTrace g dest fuel s).map Prod.fst = bfsLoop g dest fuel s := by
  intro fuel
  induction fuel with
  | zero =>
    intro s
    rw [bfsLoopTrace, bfsLoop]
    split <;> rfl
  | succ fuel ih =>
    intro s
    rw [bfsLoopTrace, bfsLoop]
    split
    · simp only [Option.map_map]
      rw [← expandNeighborsTrace_fst, ← ih]
      rfl
    · rfl

theorem bfsLoopTrace_found (g : Graph) (dest : Int) (fuel : Nat) {s : BfsState}
    (h : s.found = true) : bfsLoopTrace g dest fuel s = some (s, []) := by
  cases fuel <;> (rw [bfsLoopTrace]; simp [h])

theorem expandNeighborsTrace_index_mem (dest c : Int) :
    ∀ (temp : List Int) (s : BfsState) (e : NeighborEvent),
      e ∈ (expandNeighborsTrace dest c temp s).2 → e.index ∈ temp
  | [], _, e, h => by simp [expandNeighborsTrace] at h
  | b :: temp, s, e, h => by
    rw [expandNeighborsTrace] at h
    split at h
    · split at h
      · simp only [List.mem_cons, List.mem_singleton, List.not_mem_nil, or_false] at h
        rcases h with h | h <;> (rw [h]; simp [NeighborEvent.index])
      · simp only [List.mem_cons] at h
        rcases h with h | h | h
        · rw [h]; simp [NeighborEvent.index]
        · rw [h]; simp [NeighborEvent.index]
        · exact List.mem_cons_of_mem _ (expandNeighborsTrace_index_mem dest c temp _ e h)
    · simp only [List.mem_cons] at h
      rcases h with h | h
      · rw [h]; simp [NeighborEvent.index]
      · exact List.mem_cons_of_mem _ (expandNeighborsTrace_index_mem dest c temp _ e h)

theorem expandNeighborsTrace_exit (dest c : Int) :
    ∀ (temp : List Int) (s : BfsState), s.found = false →
      ∀ pre post, (expandNeighborsTrace dest c temp s).2 = pre ++ .discovered dest :: post →
        post = [] ∧
        ∃ s0 : BfsState, s0.visited dest = false ∧
          (expandNeighborsTrace dest c temp s).1 =
            { visited := setAt s0.visited dest true, parent := setAt s0.parent dest c,
              queue := enqueue s0.queue dest, found := true }
  | [], _, _, pre, post, h => by
    simp [expandNeighborsTrace] at h
  | b :: temp, s, hf, pre, post, h => by
    rw [expandNeighborsTrace] at h ⊢
    cases hb : s.visited b with
    | true =>
      simp only [hb, Bool.not_true, Bool.false_eq_true, if_false] at h ⊢
      cases pre with
      | nil => simp at h
      | cons x pre =>
        simp only [List.cons_append, List.cons.injEq] at h
        exact expandNeighborsTrace_exit dest c temp s hf pre post h.2
    | false =>
      simp only [hb, Bool.not_false, if_true] at h ⊢
      by_cases hd : b = dest
      · simp only [hd, if_true] at h ⊢
        cases pre with
        | nil => simp at h
        | cons x pre =>
          cases pre with
          | nil =>
            simp only [List.cons_append, List.nil_append, List.cons.injEq] at h
            exact ⟨h.2.2.symm, s, hd ▸ hb, rfl⟩
          | cons y pre =>
            simp only [List.cons_append, List.cons.injEq] at h
            have := h.2.2
            simp at this
      · simp only [hd, if_false] at h ⊢
        cases pre with
        | nil => simp at h
        | cons x pre =>
          cases pre with
          | nil =>
            simp only [List.cons_append, List.nil_append, List.cons.injEq,
              NeighborEvent.discovered.injEq] at h
            exact absurd h.2.1 hd
          | cons y pre =>
            simp only [List.cons_append, List.cons.injEq] at h
            exact expandNeighborsTrace_exit dest c temp
              { visited := setAt s.visited b true, parent := setAt s.parent b c,
                queue := enqueue s.queue b, found := s.found } hf pre post h.2.2

theorem bfsLoopTrace_exit (g : Graph) (dest : Int) :
    ∀ (fuel : Nat) (s st : BfsState) (tr : List (Int × List NeighborEvent)),
      s.found = false → bfsLoopTrace g dest fuel s = some (st, tr) →
      ∀ its1 c evs its2 pre post, tr = its1 ++ (c, evs) :: its2 →
        evs = pre ++ .discovered dest :: post →
        post = [] ∧ its2 = [] ∧
        ∃ s0 : BfsState, s0.visited dest = false ∧
          st = { visited := setAt s0.visited dest true, parent := setAt s0.parent dest c,
                 queue := enqueue s0.queue dest, found := true } := by
  intro fuel
  induction fuel with
  | zero =>
    intro s st tr hf h its1 c evs its2 pre post htr _
    rw [bfsLoopTrace] at h
    split at h
    · simp at h
    · simp only [Option.some.injEq, Prod.mk.injEq] at h
      rw [← h.2] at htr
      simp at htr
  | succ fuel ih =>
    intro s st tr hf h its1 c evs its2 pre post htr hevs
    rw [bfsLoopTrace] at h
    split at h
    · simp only [Option.map_eq_some'] at h
      obtain ⟨t, ht, hst⟩ := h
      simp only [Prod.mk.injEq] at hst
      obtain ⟨hst1, hst2⟩ := hst
      rw [← hst2] at htr
      cases its1 with
      | nil =>
        simp only [List.nil_append, List.cons.injEq, Prod.mk.injEq] at htr
        obtain ⟨⟨hc, he⟩, hits⟩ := htr
        rw [← he] at hevs
        obtain ⟨hpost, s0, hs0, hr⟩ := expandNeighborsTrace_exit dest (dequeue s.queue).1
          (g.adjLists (dequeue s.queue).1) { s with queue := (dequeue s.queue).2 } hf pre post
          hevs
        have hfound : (expandNeighborsTrace dest (dequeue s.queue).1
            (g.adjLists (dequeue s.queue).1) { s with queue := (dequeue s.queue).2 }).1.found
            = true := by rw [hr]
        rw [bfsLoopTrace_found g dest fuel hfound] at ht
        simp only [Option.some.injEq] at ht
        rw [← ht] at hits hst1
        refine ⟨hpost, hits.symm, s0, hs0, ?_⟩
        rw [← hst1, ← hc]
        exact hr
      | cons x its1 =>
        simp only [List.cons_append, List.cons.injEq] at htr
        cases hfound : (expandNeighborsTrace dest (dequeue s.queue).1
            (g.adjLists (dequeue s.queue).1) { s with queue := (dequeue s.queue).2 }).1.found with
        | true =>
          rw [bfsLoopTrace_found g dest fuel hfound] at ht
          simp only [Option.some.injEq] at ht
          rw [← ht] at htr
          simp at htr
        | false =>
          have := ih _ t.1 t.2 hfound ht its1 c evs its2 pre post htr.2 hevs
          rw [hst1] at this
          exact this
    · simp only [Option.some.injEq, Prod.mk.injEq] at h
      rw [← h.2] at htr
      simp at htr

theorem bfsLoopTrace_stop (g : Graph) (dest : Int) (fuel : Nat) {s : BfsState}
    (h : isEmpty s.queue = true) : bfsLoopTrace g dest fuel s = some (s, []) := by
  cases fuel <;> (rw [bfsLoopTrace]; simp [h])

theorem bfsLoopTrace_inv {g : Graph} (wf : g.NeighborsInRange) {src dest : Int} :
    ∀ (fuel : Nat) (s : BfsState) (lvl : Int → Nat) (todo : List Int),
      BfsInv g src dest lvl s.visited s.parent s.found todo →
      (s.found = false →
        s.queue.Holds todo ∧ unvisitedCount g.numVertices s.visited + todo.length ≤ fuel) →
      ∃ st tr, bfsLoopTrace g dest fuel s = some (st, tr) ∧
        (∀ it ∈ tr, (0 ≤ it.1 ∧ it.1 < g.numVertices) ∧
          ∀ e ∈ it.2, 0 ≤ e.index ∧ e.index < g.numVertices) ∧
        tr.length ≤ unvisitedCount g.numVertices s.visited + todo.length := by
  intro fuel
  induction fuel with
  | zero =>
    intro s lvl todo inv h
    cases hf : s.found with
    | true => exact ⟨s, [], bfsLoopTrace_found g dest 0 hf, by simp, by simp⟩
    | false =>
      obtain ⟨hq, hc⟩ := h hf
      have ht : todo = [] := by
        cases todo with
        | nil => rfl
        | cons a l => simp at hc
      exact ⟨s, [], bfsLoopTrace_stop g dest 0 ((holds_isEmpty hq).2 ht), by simp, by simp⟩
  | succ fuel ih =>
    intro s lvl todo inv h
    cases hf : s.found with
    | true => exact ⟨s, [], bfsLoopTrace_found g dest _ hf, by simp, by simp⟩
    | false =>
      obtain ⟨hq, hc⟩ := h hf
      cases todo with
      | nil =>
        exact ⟨s, [], bfsLoopTrace_stop g dest _ ((holds_isEmpty hq).2 rfl), by simp, by simp⟩
      | cons c ql =>
        have hne : isEmpty s.queue = false := by
          cases he : isEmpty s.queue with
          | false => rfl
          | true => exact absurd ((holds_isEmpty hq).1 he) (by simp)
        obtain ⟨hd1, hd2⟩ := holds_dequeue hq
        have e : bfsLoopTrace g dest (fuel + 1) s =
            (bfsLoopTrace g dest fuel (expandNeighborsTrace dest c (g.adjLists c)
                { s with queue := (dequeue s.queue).2 }).1).map
              (fun t => (t.1, (c, (expandNeighborsTrace dest c (g.adjLists c)
                { s with queue := (dequeue s.queue).2 }).2) :: t.2)) := by
          rw [bfsLoopTrace]; simp [hne, hf, hd1]
        rw [hf] at inv
        have hcv : s.visited c = true := inv.todo_visited c (by simp)
        have hcr := inv.range c hcv
        obtain ⟨lvl2, todo2, i2, h2⟩ := expandNeighbors_inv wf (g.adjLists c)
          { s with queue := (dequeue s.queue).2 } lvl ql inv hf hd2 (fun b hb => hb)
          (fun b hb => Or.inr hb)
        rw [← expandNeighborsTrace_fst] at i2 h2
        have hev : ∀ ev ∈ (expandNeighborsTrace dest c (g.adjLists c)
            { s with queue := (dequeue s.queue).2 }).2,
            0 ≤ ev.index ∧ ev.index < g.numVertices := by
          intro ev hev
          exact wf c ev.index hcr.1 hcr.2 (expandNeighborsTrace_index_mem dest c _ _ ev hev)
        simp only [List.length_cons] at hc ⊢
        cases hfound : (expandNeighborsTrace dest c (g.adjLists c)
            { s with queue := (dequeue s.queue).2 }).1.found with
        | true =>
          rw [e, bfsLoopTrace_found g dest fuel hfound]
          refine ⟨_, _, rfl, ?_, ?_⟩
          · intro it hit
            simp only [List.mem_singleton] at hit
            rw [hit]; exact ⟨hcr, hev⟩
          · simp only [Option.map_some', List.length_singleton]
            omega
        | false =>
          obtain ⟨hq2, hc2⟩ := h2 hfound
          have hc3 : unvisitedCount g.numVertices
              ({ s with queue := (dequeue s.queue).2 } : BfsState).visited
              = unvisitedCount g.numVertices s.visited := rfl
          obtain ⟨st, tr, htr, hr1, hr2⟩ := ih _ lvl2 todo2 i2
            (fun _ => ⟨hq2, by omega⟩)
          rw [e, htr]
          refine ⟨_, _, rfl, ?_, ?_⟩
          · intro it hit
            simp only [List.mem_cons] at hit
            rcases hit with hit | hit
            · rw [hit]; exact ⟨hcr, hev⟩
            · exact hr1 it hit
          · simp only [List.length_cons]
            omega

theorem bfsLoopTrace_init {g : Graph} (wf : g.NeighborsInRange) {src : Int} (dest : Int)
    (fuel : Nat) (hs0 : 0 ≤ src) (hsn : src < g.numVertices) (hne : src ≠ dest)
    (hfuel : g.numVertices ≤ fuel) :
    ∃ st tr, bfsLoopTrace g dest fuel (bfsInit src) = some (st, tr) ∧
      (∀ it ∈ tr, (0 ≤ it.1 ∧ it.1 < g.numVertices) ∧
        ∀ e ∈ it.2, 0 ≤ e.index ∧ e.index < g.numVertices) ∧
      tr.length ≤ g.numVertices.toNat := by
  have h := unvisitedCount_init hs0 hsn
  obtain ⟨st, tr, h1, h2, h3⟩ := bfsLoopTrace_inv wf fuel (bfsInit src) (fun _ => 0) [src]
    (bfsInv_init hs0 hsn hne)
    (fun _ => ⟨holds_enqueue src holds_createQueue, by
      simp only [bfsInit, List.length_singleton]; omega⟩)
  refine ⟨st, tr, h1, h2, ?_⟩
  simp only [bfsInit, List.length_singleton] at h3
  omega

theorem bfsLoopTrace_mono (g : Graph) (dest : Int) :
    ∀ (fuel : Nat) (s : BfsState) (r : BfsState × List (Int × List NeighborEvent)),
      bfsLoopTrace g dest fuel s = some r →
      ∀ fuel2, fuel ≤ fuel2 → bfsLoopTrace g dest fuel2 s = some r := by
  intro fuel
  induction fuel with
  | zero =>
    intro s r h fuel2 _
    rw [bfsLoopTrace] at h
    split at h
    · simp at h
    · rename_i hc
      cases fuel2 <;> (rw [bfsLoopTrace, if_neg hc]; exact h)
  | succ fuel ih =>
    intro s r h fuel2 hle
    rw [bfsLoopTrace] at h
    split at h
    · rename_i hc
      obtain ⟨f2, rfl⟩ : ∃ f2, fuel2 = f2 + 1 := ⟨fuel2 - 1, by omega⟩
      simp only [Option.map_eq_some'] at h
      obtain ⟨t, ht, hr⟩ := h
      rw [bfsLoopTrace, if_pos hc]
      simp only [Option.map_eq_some']
      exact ⟨t, ih _ t ht f2 (by omega), hr⟩
    · rename_i hc
      cases fuel2 <;> (rw [bfsLoopTrace, if_neg hc]; exact h)

/-! ## Walks in two graphs, and in the two directions -/

theorem walk_mono {g g2 : Graph} (h : ∀ a b, b ∈ g.adjLists a → b ∈ g2.adjLists a)
    {src v : Int} {k : Nat} (hw : WalkOfLength g src v k) : WalkOfLength g2 src v k := by
  induction hw with
  | start => exact WalkOfLength.start
  | step _ hab ih => exact WalkOfLength.step ih (h _ _ hab)

theorem walk_prepend {g : Graph} {a b c : Int} {k : Nat} (hab : b ∈ g.adjLists a)
    (hw : WalkOfLength g b c k) : WalkOfLength g a c (k + 1) := by
  induction hw with
  | start => exact WalkOfLength.step WalkOfLength.start hab
  | step _ hxy ih => exact WalkOfLength.step ih hxy

theorem walk_reverse {g : Graph} (hsym : ∀ a b, b ∈ g.adjLists a → a ∈ g.adjLists b)
    {a b : Int} {k : Nat} (hw : WalkOfLength g a b k) : WalkOfLength g b a k := by
  induction hw with
  | start => exact WalkOfLength.start
  | step _ hxy ih => exact walk_prepend (hsym _ _ hxy) ih

theorem verdict_eq_of_walks {g g2 : Graph} (wf : g.NeighborsInRange)
    (wf2 : g2.NeighborsInRange) {s d s2 d2 : Int} {fuel : Nat}
    (hs : 0 ≤ s ∧ s < g.numVertices) (hd : 0 ≤ d ∧ d < g.numVertices) (hne : s ≠ d)
    (hs2 : 0 ≤ s2 ∧ s2 < g2.numVertices) (hd2 : 0 ≤ d2 ∧ d2 < g2.numVertices)
    (hne2 : s2 ≠ d2) (hfuel : g.numVertices ≤ fuel) (hfuel2 : g2.numVertices ≤ fuel)
    (hw : ∀ k, WalkOfLength g s d k ↔ WalkOfLength g2 s2 d2 k) :
    ∃ r r2, findConnection fuel g s d = some r ∧ findConnection fuel g2 s2 d2 = some r2 ∧
      r.verdict = r2.verdict := by
  rcases findConnection_search wf hs.1 hs.2 hd.1 hd.2 hne hfuel with
    ⟨p, h1, _, _, _, _, _, h7, h8⟩ | ⟨h1, hn⟩ <;>
  rcases findConnection_search wf2 hs2.1 hs2.2 hd2.1 hd2.2 hne2 hfuel2 with
    ⟨p2, k1, _, _, _, _, _, k7, k8⟩ | ⟨k1, kn⟩
  · refine ⟨_, _, h1, k1, ?_⟩
    have a1 := h8 _ ((hw _).2 k7)
    have a2 := k8 _ ((hw _).1 h7)
    simp only [ConnectionResult.verdict, Verdict.connected.injEq]
    omega
  · exact absurd ⟨_, (hw _).1 h7⟩ kn
  · exact absurd ⟨_, (hw _).2 k7⟩ hn
  · exact ⟨_, _, h1, k1, rfl⟩

theorem neighborsInRange_addEdge {g : Graph} (wf : g.NeighborsInRange) {a b : Int}
    (ha : 0 ≤ a ∧ a < g.numVertices) (hb : 0 ≤ b ∧ b < g.numVertices) :
    (addEdge g a b).NeighborsInRange := by
  intro v x hv0 hvn hx
  rw [addEdge_numVertices] at hvn ⊢
  rw [addEdge_adjLists, List.mem_append, mem_pushedBy] at hx
  rcases hx with (⟨_, h⟩ | ⟨_, h⟩) | h
  · rw [h]; exact ha
  · rw [h]; exact hb
  · exact wf v x hv0 hvn h

theorem mem_adjLists_addEdge_of_present {g : Graph}
    (hsym : ∀ x y, y ∈ g.adjLists x → x ∈ g.adjLists y) {a b : Int}
    (hab : b ∈ g.adjLists a) (x y : Int) :
    y ∈ (addEdge g a b).adjLists x ↔ y ∈ g.adjLists x := by
  rw [addEdge_adjLists, List.mem_append, mem_pushedBy]
  constructor
  · rintro ((⟨h1, h2⟩ | ⟨h1, h2⟩) | h)
    · rw [h1, h2]; exact hsym _ _ hab
    · rw [h1, h2]; exact hab
    · exact h
  · intro h; exact Or.inr h

theorem symmetric_loadGraphFromFile (n : Int) (edges : List (Int × Int)) (a b : Int)
    (hab : b ∈ (loadGraphFromFile n edges).adjLists a) :
    a ∈ (loadGraphFromFile n edges).adjLists b := by
  obtain ⟨e, he, h⟩ := mem_adjLists_loadGraphFromFile.1 hab
  rcases h with ⟨h1, h2⟩ | ⟨h1, h2⟩
  · exact mem_adjLists_loadGraphFromFile.2 ⟨e, he, Or.inr ⟨h2, h1⟩⟩
  · exact mem_adjLists_loadGraphFromFile.2 ⟨e, he, Or.inl ⟨h2, h1⟩⟩

theorem endpoints_in_range_of_mem {n : Int} {edges : List (Int × Int)}
    (hedges : InRangeEdges n edges) {a b : Int}
    (hab : b ∈ (loadGraphFromFile n edges).adjLists a) :
    (0 ≤ a ∧ a < n) ∧ (0 ≤ b ∧ b < n) := by
  obtain ⟨e, he, h⟩ := mem_adjLists_loadGraphFromFile.1 hab
  rcases h with ⟨h1, h2⟩ | ⟨h1, h2⟩
  · rw [h1, h2]; exact ⟨(hedges e he).2, (hedges e he).1⟩
  · rw [h1, h2]; exact ⟨(hedges e he).1, (hedges e he).2⟩

/-! ## The claims -/

/-- Claim C1. On a graph built by `createGraph n` and in-range `addEdge` calls, for in-range
`src ≠ dest`, `findConnection` returns (any fuel of at least `n` suffices), and when it
reports a connection the reported path, which is the array of the reconstruction loop read
backwards, starts at `src`, ends at `dest`, has an edge of the graph between every two
consecutive vertices, and the printed `is friends with` lines are exactly its consecutive
pairs. -/
theorem findConnection_path_is_walk (n : Int) (edges : List (Int × Int)) (src dest : Int)
    (fuel : Nat) (hedges : InRangeEdges n edges) (hsrc : 0 ≤ src ∧ src < n)
    (hdest : 0 ≤ dest ∧ dest < n) (hne : src ≠ dest) (hfuel : n ≤ fuel) :
    ∃ r, findConnection fuel (loadGraphFromFile n edges) src dest = some r ∧
      ∀ s d path printed, r = .Connected s d path printed →
        path.reverse.head? = some src ∧ path.reverse.getLast? = some dest ∧
        List.Chain' (fun a b => b ∈ (loadGraphFromFile n edges).adjLists a) path.reverse ∧
        printed = path.reverse.zip path.reverse.tail := by
  rcases findConnection_search_load fuel hedges hsrc hdest hne hfuel with
    ⟨path, h1, h2, h3, h4, _⟩ | ⟨h1, _⟩
  · refine ⟨_, h1, ?_⟩
    intro s d p pr hr
    simp only [ConnectionResult.Connected.injEq] at hr
    obtain ⟨_, _, rfl, rfl⟩ := hr
    refine ⟨by rw [List.head?_reverse, h3], by rw [List.getLast?_reverse, h2], ?_,
      printLoop_eq_zip path⟩
    rw [List.chain'_reverse]
    exact h4
  · refine ⟨_, h1, ?_⟩
    intro s d p pr hr
    simp at hr

/-- Witness of C1 on the path graph `0 - 1 - 2 - 3`. -/
theorem findConnection_path_is_walk_witness :
    findConnection 4 (loadGraphFromFile 4 [(0, 1), (1, 2), (2, 3)]) 0 3
        = some (.Connected 0 3 [3, 2, 1, 0] [(0, 1), (1, 2), (2, 3)]) ∧
    ∃ r, findConnection 4 (loadGraphFromFile 4 [(0, 1), (1, 2), (2, 3)]) 0 3 = some r ∧
      ∀ s d path printed, r = .Connected s d path printed →
        path.reverse.head? = some 0 ∧ path.reverse.getLast? = some 3 ∧
        List.Chain'
          (fun a b => b ∈ (loadGraphFromFile 4 [(0, 1), (1, 2), (2, 3)]).adjLists a)
          path.reverse ∧
        printed = path.reverse.zip path.reverse.tail :=
  ⟨by decide,
    findConnection_path_is_walk 4 [(0, 1), (1, 2), (2, 3)] 0 3 4 (by decide) (by decide)
      (by decide) (by decide) (by decide)⟩

/-- Claim C2. On a graph built from in-range edges, for in-range `src ≠ dest`,
`findConnection` returns (any fuel of at least `n` suffices), and when it reports a
connection the number of hops of the reported path, `path.length - 1`, is the graph
distance from `src` to `dest`: some walk from `src` to `dest` has that many edges and no
walk from `src` to `dest` has fewer. -/
theorem findConnection_hops_eq_distance (n : Int) (edges : List (Int × Int)) (src dest : Int)
    (fuel : Nat) (hedges : InRangeEdges n edges) (hsrc : 0 ≤ src ∧ src < n)
    (hdest : 0 ≤ dest ∧ dest < n) (hne : src ≠ dest) (hfuel : n ≤ fuel) :
    ∃ r, findConnection fuel (loadGraphFromFile n edges) src dest = some r ∧
      ∀ s d path printed, r = .Connected s d path printed →
        WalkOfLength (loadGraphFromFile n edges) src dest (path.length - 1) ∧
        ∀ k, WalkOfLength (loadGraphFromFile n edges) src dest k → path.length - 1 ≤ k := by
  rcases findConnection_search_load fuel hedges hsrc hdest hne hfuel with
    ⟨path, h1, _, _, _, _, _, h7, h8⟩ | ⟨h1, _⟩
  · refine ⟨_, h1, ?_⟩
    intro s d p pr hr
    simp only [ConnectionResult.Connected.injEq] at hr
    obtain ⟨_, _, rfl, rfl⟩ := hr
    exact ⟨h7, h8⟩
  · refine ⟨_, h1, ?_⟩
    intro s d p pr hr
    simp at hr

/-- Witness of C2 on the cycle `0 - 1 - 2 - 3 - 0`, from 0 to the opposite vertex 2. -/
theorem findConnection_hops_eq_distance_witness :
    findConnection 4 (loadGraphFromFile 4 [(0, 1), (1, 2), (2, 3), (0, 3)]) 0 2
        = some (.Connected 0 2 [2, 3, 0] [(0, 3), (3, 2)]) ∧
    ∃ r, findConnection 4 (loadGraphFromFile 4 [(0, 1), (1, 2), (2, 3), (0, 3)]) 0 2 = some r ∧
      ∀ s d path printed, r = .Connected s d path printed →
        WalkOfLength (loadGraphFromFile 4 [(0, 1), (1, 2), (2, 3), (0, 3)]) 0 2
          (path.length - 1) ∧
        ∀ k, WalkOfLength (loadGraphFromFile 4 [(0, 1), (1, 2), (2, 3), (0, 3)]) 0 2 k →
          path.length - 1 ≤ k :=
  ⟨by decide,
    findConnection_hops_eq_distance 4 [(0, 1), (1, 2), (2, 3), (0, 3)] 0 2 4 (by decide)
      (by decide) (by decide) (by decide) (by decide)⟩

/-- Claim C3. On a graph built from in-range edges, for in-range `src ≠ dest`,
`findConnection` returns (any fuel of at least `n` suffices); it reports
`Cannot find a connection` exactly when `dest` is not reachable from `src`, and it reports
a connection exactly when `dest` is reachable from `src`. -/
theorem findConnection_notConnected_iff (n : Int) (edges : List (Int × Int)) (src dest : Int)
    (fuel : Nat) (hedges : InRangeEdges n edges) (hsrc : 0 ≤ src ∧ src < n)
    (hdest : 0 ≤ dest ∧ dest < n) (hne : src ≠ dest) (hfuel : n ≤ fuel) :
    ∃ r, findConnection fuel (loadGraphFromFile n edges) src dest = some r ∧
      (r = .NotConnected src dest ↔ ¬ Reachable (loadGraphFromFile n edges) src dest) ∧
      ((∃ path printed, r = .Connected src dest path printed) ↔
        Reachable (loadGraphFromFile n edges) src dest) := by
  rcases findConnection_search_load fuel hedges hsrc hdest hne hfuel with
    ⟨path, h1, _, _, _, _, _, h7, _⟩ | ⟨h1, h2⟩
  · have hreach : Reachable (loadGraphFromFile n edges) src dest := ⟨_, h7⟩
    refine ⟨_, h1, ?_, ?_⟩
    · constructor
      · intro h; simp at h
      · intro h; exact absurd hreach h
    · exact ⟨fun _ => hreach, fun _ => ⟨_, _, rfl⟩⟩
  · refine ⟨_, h1, ?_, ?_⟩
    · exact ⟨fun _ => h2, fun _ => rfl⟩
    · constructor
      · rintro ⟨p, pr, h⟩; simp at h
      · intro h; exact absurd h h2

/-- Witness of C3 on the graph with three vertices and the single edge `0 - 1`. -/
theorem findConnection_notConnected_iff_witness :
    findConnection 3 (loadGraphFromFile 3 [(0, 1)]) 0 2 = some (.NotConnected 0 2) ∧
    ∃ r, findConnection 3 (loadGraphFromFile 3 [(0, 1)]) 0 2 = some r ∧
      (r = .NotConnected 0 2 ↔ ¬ Reachable (loadGraphFromFile 3 [(0, 1)]) 0 2) ∧
      ((∃ path printed, r = .Connected 0 2 path printed) ↔
        Reachable (loadGraphFromFile 3 [(0, 1)]) 0 2) :=
  ⟨by decide,
    findConnection_notConnected_iff 3 [(0, 1)] 0 2 3 (by decide) (by decide) (by decide)
      (by decide) (by decide)⟩

/-- Claim C4. For every graph and every in-range vertex `v`, `findConnection g v v` prints
the same-person message.  The search is not run: the answer is reached with any fuel, so
also with fuel `0`, which allows no iteration of either loop, and it does not depend on the
adjacency lists. -/
theorem findConnection_same_vertex (fuel : Nat) (g : Graph) (v : Int) (h0 : 0 ≤ v)
    (hn : v < g.numVertices) :
    findConnection fuel g v v = some (.SameVertex v v) ∧
    ∀ adj, findConnection 0 { g with adjLists := adj } v v = some (.SameVertex v v) := by
  have hcond : ¬ (v < 0 ∨ v ≥ g.numVertices ∨ v < 0 ∨ v ≥ g.numVertices) := by omega
  constructor
  · rw [findConnection, if_neg hcond, if_pos rfl]
  · intro adj
    rw [findConnection, if_neg hcond, if_pos rfl]

/-- Witness of C4 on the path graph `0 - 1 - 2 - 3`, at vertex 2. -/
theorem findConnection_same_vertex_witness :
    findConnection 4 (loadGraphFromFile 4 [(0, 1), (1, 2), (2, 3)]) 2 2
        = some (.SameVertex 2 2) ∧
    ∀ adj, findConnection 0
        { loadGraphFromFile 4 [(0, 1), (1, 2), (2, 3)] with adjLists := adj } 2 2
      = some (.SameVertex 2 2) :=
  findConnection_same_vertex 4 (loadGraphFromFile 4 [(0, 1), (1, 2), (2, 3)]) 2 (by decide)
    (by decide)

/-- Claim C5. For every graph, a query naming an index `< 0` or `≥ numVertices` prints the
error message: `displayFriendList` for such a `personId`, and `findConnection` when `src`
or `dest` is such an index (also when `src = dest`).  No adjacency list is read: the
answer is the same whatever the adjacency lists are, and `findConnection` needs no fuel. -/
theorem out_of_range_query_rejected (g : Graph) (fuel : Nat) (personId src dest : Int)
    (hp : personId < 0 ∨ personId ≥ g.numVertices)
    (hq : src < 0 ∨ src ≥ g.numVertices ∨ dest < 0 ∨ dest ≥ g.numVertices) :
    displayFriendList g personId = .notFound personId ∧
    findConnection fuel g src dest = some .OutOfRange ∧
    ∀ adj, displayFriendList { g with adjLists := adj } personId = .notFound personId ∧
      findConnection 0 { g with adjLists := adj } src dest = some .OutOfRange := by
  refine ⟨?_, ?_, ?_⟩
  · rw [displayFriendList, if_pos hp]
  · rw [findConnection, if_pos hq]
  · intro adj
    constructor
    · rw [displayFriendList, if_pos hp]
    · rw [findConnection, if_pos hq]

/-- Witness of C5 on a graph with three vertices: person 3, and the query `(-1, -1)`. -/
theorem out_of_range_query_rejected_witness :
    displayFriendList (loadGraphFromFile 3 [(0, 1)]) 3 = .notFound 3 ∧
    findConnection 3 (loadGraphFromFile 3 [(0, 1)]) (-1) (-1) = some .OutOfRange ∧
    ∀ adj, displayFriendList { loadGraphFromFile 3 [(0, 1)] with adjLists := adj } 3
        = .notFound 3 ∧
      findConnection 0 { loadGraphFromFile 3 [(0, 1)] with adjLists := adj } (-1) (-1)
        = some .OutOfRange :=
  out_of_range_query_rejected (loadGraphFromFile 3 [(0, 1)]) 3 3 (-1) (-1) (by decide)
    (by decide)

/-- Claim C6. For every `n` and every list of in-range edges added by `addEdge` to
`createGraph n`, each edge `(src, dest)` of the list is present in both directions in the
final graph: `dest` is in the list of `src` and `src` is in the list of `dest`. -/
theorem added_edge_in_both_lists (n : Int) (edges : List (Int × Int))
    (_hedges : InRangeEdges n edges) (e : Int × Int) (he : e ∈ edges) :
    e.2 ∈ (loadGraphFromFile n edges).adjLists e.1 ∧
    e.1 ∈ (loadGraphFromFile n edges).adjLists e.2 :=
  ⟨mem_adjLists_loadGraphFromFile.2 ⟨e, he, Or.inr ⟨rfl, rfl⟩⟩,
    mem_adjLists_loadGraphFromFile.2 ⟨e, he, Or.inl ⟨rfl, rfl⟩⟩⟩

/-- Witness of C6: the edge `(1, 2)` of the path graph `0 - 1 - 2 - 3`. -/
theorem added_edge_in_both_lists_witness :
    InRangeEdges 4 [(0, 1), (1, 2), (2, 3)] ∧
    (2 : Int) ∈ (loadGraphFromFile 4 [(0, 1), (1, 2), (2, 3)]).adjLists 1 ∧
    (1 : Int) ∈ (loadGraphFromFile 4 [(0, 1), (1, 2), (2, 3)]).adjLists 2 :=
  ⟨by decide,
    added_edge_in_both_lists 4 [(0, 1), (1, 2), (2, 3)] (by decide) (1, 2) (by decide)⟩

/-- Claim C7 fails as stated. On the one-vertex graph built from the single edge `(0, 0)`,
`displayFriendList` counts 2 friends for vertex 0, while one edge of the list is incident
to vertex 0. -/
theorem friendCount_selfLoop_counterexample :
    InRangeEdges 1 [(0, 0)] ∧
    displayFriendList (loadGraphFromFile 1 [(0, 0)]) 0 = .friends 0 2 [0, 0] ∧
    incidentCount 0 [(0, 0)] = 1 ∧
    ¬ ∃ listed, displayFriendList (loadGraphFromFile 1 [(0, 0)]) 0
        = .friends 0 (incidentCount 0 [(0, 0)]) listed := by
  refine ⟨by decide, by decide, by decide, ?_⟩
  rintro ⟨listed, h⟩
  have e : displayFriendList (loadGraphFromFile 1 [(0, 0)]) 0 = .friends 0 2 [0, 0] := by
    decide
  rw [e] at h
  simp only [FriendListOutput.friends.injEq] at h
  have e2 : incidentCount 0 [(0, 0)] = 1 := by decide
  rw [e2] at h
  exact absurd h.2.1 (by decide)

/-- Claim C7, amended. For every graph built from `createGraph n` by a list of in-range
`addEdge` calls and every in-range vertex `v`, the friend count computed by
`displayFriendList` is the number of edges of the list incident to `v`, parallel edges
counted with their multiplicity and every self-loop `(v, v)` counted twice. -/
theorem friendCount_eq_incident_plus_loops (n : Int) (edges : List (Int × Int)) (v : Int)
    (_hedges : InRangeEdges n edges) (h0 : 0 ≤ v) (hn : v < n) :
    ∃ listed, displayFriendList (loadGraphFromFile n edges) v
      = .friends v (incidentCount v edges + selfLoopCount v edges : Nat) listed := by
  refine ⟨(loadGraphFromFile n edges).adjLists v, ?_⟩
  rw [displayFriendList_in_range _ v h0 (by rw [loadGraphFromFile_numVertices]; exact hn),
    loadGraphFromFile_adjLists, length_pushedAll]

/-- Witness of the amended C7: vertex 1 of the graph with edges `0 - 1`, `1 - 1`, `1 - 0`. -/
theorem friendCount_eq_incident_plus_loops_witness :
    displayFriendList (loadGraphFromFile 2 [(0, 1), (1, 1), (1, 0)]) 1
        = .friends 1 4 [0, 1, 1, 0] ∧
    ∃ listed, displayFriendList (loadGraphFromFile 2 [(0, 1), (1, 1), (1, 0)]) 1
      = .friends 1 (incidentCount 1 [(0, 1), (1, 1), (1, 0)]
          + selfLoopCount 1 [(0, 1), (1, 1), (1, 0)] : Nat) listed :=
  ⟨by decide,
    friendCount_eq_incident_plus_loops 2 [(0, 1), (1, 1), (1, 0)] 1 (by decide) (by decide)
      (by decide)⟩

/-- Claim C8, the code at the failing input. Loading the edge `(5, 1)` into a graph with 3
vertices does not fail: the graph is returned with `numVertices = 3`, `addEdge` has written
a node at `adjLists[5]`, outside of the array, and vertex 1 now lists the friend 5, which
is not a vertex. -/
theorem loadGraphFromFile_unchecked_edge :
    (loadGraphFromFile 3 [(5, 1)]).numVertices = 3 ∧
    ((loadGraphFromFile 3 [(5, 1)]).adjLists 5).head? = some 1 ∧
    (loadGraphFromFile 3 [(5, 1)]).adjLists 1 = [5] ∧
    displayFriendList (loadGraphFromFile 3 [(5, 1)]) 1 = .friends 1 1 [5] := by
  decide

/-- Claim C9 fails as stated. `createGraph (-1)` returns a graph, whose `numVertices`
is `-1`; loading a file that announces `-1` vertices and no edge yields that graph. -/
theorem createGraph_negative_counterexample :
    ∃ g : Graph, createGraph (-1) = g ∧ g.numVertices = -1 ∧
      (loadGraphFromFile (-1) []).numVertices = -1 :=
  ⟨createGraph (-1), rfl, rfl, rfl⟩

/-- Claim C9, amended. `createGraph` has no size check: for every negative `numVertices` it
returns a graph that records `numVertices` as given and has no adjacency entry, and every
friend-list or connection query on that graph prints the out-of-range error. -/
theorem createGraph_negative_returns_graph (vertices : Int) (hneg : vertices < 0) :
    (createGraph vertices).numVertices = vertices ∧
    (∀ v, (createGraph vertices).adjLists v = []) ∧
    (∀ personId, displayFriendList (createGraph vertices) personId = .notFound personId) ∧
    ∀ fuel src dest, findConnection fuel (createGraph vertices) src dest = some .OutOfRange := by
  refine ⟨rfl, fun _ => rfl, ?_, ?_⟩
  · intro p
    have hp : p < 0 ∨ p ≥ (createGraph vertices).numVertices := by
      simp only [createGraph]; omega
    rw [displayFriendList, if_pos hp]
  · intro fuel src dest
    have hq : src < 0 ∨ src ≥ (createGraph vertices).numVertices ∨ dest < 0 ∨
        dest ≥ (createGraph vertices).numVertices := by
      simp only [createGraph]; omega
    rw [findConnection, if_pos hq]

/-- Witness of the amended C9 at `numVertices = -1`. -/
theorem createGraph_negative_returns_graph_witness :
    (createGraph (-1)).numVertices = -1 ∧
    (∀ v, (createGraph (-1)).adjLists v = []) ∧
    (∀ personId, displayFriendList (createGraph (-1)) personId = .notFound personId) ∧
    ∀ fuel src dest, findConnection fuel (createGraph (-1)) src dest = some .OutOfRange :=
  createGraph_negative_returns_graph (-1) (by decide)

/-- Claim C10. Symmetry is an invariant of the graph store: in every graph obtained from
`createGraph n` by a sequence of in-range `addEdge` calls, if `b` occurs in the neighbor
list of `a` then `a` occurs in the neighbor list of `b`. -/
theorem adjacency_symmetric (n : Int) (edges : List (Int × Int))
    (_hedges : InRangeEdges n edges) (a b : Int)
    (hab : b ∈ (loadGraphFromFile n edges).adjLists a) :
    a ∈ (loadGraphFromFile n edges).adjLists b := by
  obtain ⟨e, he, h⟩ := mem_adjLists_loadGraphFromFile.1 hab
  rcases h with ⟨h1, h2⟩ | ⟨h1, h2⟩
  · exact mem_adjLists_loadGraphFromFile.2 ⟨e, he, Or.inr ⟨h2, h1⟩⟩
  · exact mem_adjLists_loadGraphFromFile.2 ⟨e, he, Or.inl ⟨h2, h1⟩⟩

/-- Witness of C10: vertices 2 and 3 of the path graph `0 - 1 - 2 - 3`. -/
theorem adjacency_symmetric_witness :
    (3 : Int) ∈ (loadGraphFromFile 4 [(0, 1), (1, 2), (2, 3)]).adjLists 2 ∧
    (2 : Int) ∈ (loadGraphFromFile 4 [(0, 1), (1, 2), (2, 3)]).adjLists 3 :=
  ⟨by decide,
    adjacency_symmetric 4 [(0, 1), (1, 2), (2, 3)] (by decide) 2 3 (by decide)⟩

/-- Claim C12 fails as stated. On the one-vertex graph built from the single edge
`(0, 0)`, `displayFriendList` walks the list `[0, 0]` for vertex 0, while the other
endpoints of the edges incident to vertex 0 form the sequence `[0]`. -/
theorem friendList_selfLoop_counterexample :
    InRangeEdges 1 [(0, 0)] ∧
    displayFriendList (loadGraphFromFile 1 [(0, 0)]) 0 = .friends 0 2 [0, 0] ∧
    incidentEndpoints 0 [(0, 0)] = [0] ∧
    ¬ ∃ count, displayFriendList (loadGraphFromFile 1 [(0, 0)]) 0
        = .friends 0 count (incidentEndpoints 0 [(0, 0)]) := by
  refine ⟨by decide, by decide, by decide, ?_⟩
  rintro ⟨count, h⟩
  have e : displayFriendList (loadGraphFromFile 1 [(0, 0)]) 0 = .friends 0 2 [0, 0] := by
    decide
  rw [e] at h
  simp only [FriendListOutput.friends.injEq] at h
  have e2 : incidentEndpoints 0 [(0, 0)] = [0] := by decide
  rw [e2] at h
  exact absurd h.2.2 (by decide)

/-- Claim C12, amended. For every graph built from `createGraph n` by a list of in-range
`addEdge` calls and every in-range vertex `v`, the friend list that `displayFriendList`
walks for `v` is exactly the sequence of the other endpoints of the edges incident to `v`,
the most recently inserted edge first, a self-loop `(v, v)` contributing the entry `v`
twice.  When the list has no self-loop at `v` this is the sequence of the other endpoints
as the claim words it. -/
theorem friendList_reverse_insertion (n : Int) (edges : List (Int × Int)) (v : Int)
    (_hedges : InRangeEdges n edges) (h0 : 0 ≤ v) (hn : v < n) :
    (∃ count, displayFriendList (loadGraphFromFile n edges) v
      = .friends v count (incidentEndpointsLoopsTwice v edges)) ∧
    ((v, v) ∉ edges → incidentEndpointsLoopsTwice v edges = incidentEndpoints v edges) := by
  constructor
  · refine ⟨((loadGraphFromFile n edges).adjLists v).length, ?_⟩
    rw [displayFriendList_in_range _ v h0 (by rw [loadGraphFromFile_numVertices]; exact hn),
      loadGraphFromFile_adjLists, pushedAll_eq_incidentEndpointsLoopsTwice]
  · intro hloop
    apply flatMap_entries_eq_map
    intro e he hv
    have he2 : e ∈ edges := by
      have := (List.mem_filter.1 he).1
      exact List.mem_reverse.1 this
    have : e = (v, v) := Prod.ext hv.1 hv.2
    exact hloop (this ▸ he2)

/-- Witness of the amended C12: vertex 1 of the graph with edges `0 - 1`, `1 - 1`, `1 - 2`
inserted in this order. -/
theorem friendList_reverse_insertion_witness :
    displayFriendList (loadGraphFromFile 3 [(0, 1), (1, 1), (1, 2)]) 1
        = .friends 1 4 [2, 1, 1, 0] ∧
    ((∃ count, displayFriendList (loadGraphFromFile 3 [(0, 1), (1, 1), (1, 2)]) 1
      = .friends 1 count (incidentEndpointsLoopsTwice 1 [(0, 1), (1, 1), (1, 2)])) ∧
    (((1 : Int), (1 : Int)) ∉ [((0 : Int), (1 : Int)), (1, 1), (1, 2)] →
      incidentEndpointsLoopsTwice 1 [(0, 1), (1, 1), (1, 2)]
        = incidentEndpoints 1 [(0, 1), (1, 1), (1, 2)])) :=
  ⟨by decide,
    friendList_reverse_insertion 3 [(0, 1), (1, 1), (1, 2)] 1 (by decide) (by decide)
      (by decide)⟩

/-- Claim C13 fails as stated. On the path graph `0 - 1 - 2 - 3`, the query from 0 to 3
prints the pairs `(0, 1)`, `(1, 2)`, `(2, 3)` in this order: the first printed pair does
not involve `dest = 3` and the last printed pair does not involve `src = 0`. -/
theorem printed_order_counterexample :
    ∃ path printed first last,
      findConnection 4 (loadGraphFromFile 4 [(0, 1), (1, 2), (2, 3)]) 0 3
        = some (.Connected 0 3 path printed) ∧
      printed = [(0, 1), (1, 2), (2, 3)] ∧
      printed.head? = some first ∧ printed.getLast? = some last ∧
      first.1 ≠ 3 ∧ first.2 ≠ 3 ∧ last.1 ≠ 0 ∧ last.2 ≠ 0 :=
  ⟨[3, 2, 1, 0], [(0, 1), (1, 2), (2, 3)], (0, 1), (2, 3), by decide, rfl, rfl, rfl,
    by decide, by decide, by decide, by decide⟩

/-- Claim C13, amended. When `findConnection` finds a connection between in-range vertices
`src ≠ dest` of a graph whose neighbor ids are in range, the sequence of printed
`X is friends with Y` pairs walks from `src` toward `dest`: the first printed pair
starts with `src` and the last printed pair ends with `dest`. -/
theorem printed_pairs_walk_from_src (g : Graph) (src dest : Int) (fuel : Nat)
    (wf : g.NeighborsInRange) (hsrc : 0 ≤ src ∧ src < g.numVertices)
    (hdest : 0 ≤ dest ∧ dest < g.numVertices) (hne : src ≠ dest)
    (hfuel : g.numVertices ≤ fuel) :
    ∃ r, findConnection fuel g src dest = some r ∧
      ∀ s d path printed, r = .Connected s d path printed →
        ∃ first last, printed.head? = some first ∧ first.1 = src ∧
          printed.getLast? = some last ∧ last.2 = dest := by
  rcases findConnection_search wf hsrc.1 hsrc.2 hdest.1 hdest.2 hne hfuel with
    ⟨path, h1, h2, h3, _⟩ | ⟨h1, _⟩
  · refine ⟨_, h1, ?_⟩
    intro s d p pr hr
    simp only [ConnectionResult.Connected.injEq] at hr
    obtain ⟨_, _, rfl, rfl⟩ := hr
    have hlast := getD_last_of_getLast? h3
    have hhead := getD_zero_of_head? h2
    obtain ⟨i, hi⟩ : ∃ i, path.length - 1 = i + 1 := by
      cases path with
      | nil => simp at h2
      | cons a t =>
        cases t with
        | nil =>
          simp only [List.head?_cons, Option.some.injEq, List.getLast?_singleton] at h2 h3
          exact absurd (h3.symm.trans h2) hne
        | cons b t => exact ⟨t.length, by simp⟩
    rw [hi] at hlast ⊢
    refine ⟨(path.getD (i + 1) 0, path.getD i 0), (path.getD 1 0, path.getD 0 0), ?_, hlast,
      printLoop_getLast path i, hhead⟩
    rw [printLoop]; rfl
  · refine ⟨_, h1, ?_⟩
    intro s d p pr hr
    simp at hr

/-- Witness of the amended C13 on the path graph `0 - 1 - 2 - 3`, from 0 to 3. -/
theorem printed_pairs_walk_from_src_witness :
    findConnection 4 (loadGraphFromFile 4 [(0, 1), (1, 2), (2, 3)]) 0 3
        = some (.Connected 0 3 [3, 2, 1, 0] [(0, 1), (1, 2), (2, 3)]) ∧
    ∃ r, findConnection 4 (loadGraphFromFile 4 [(0, 1), (1, 2), (2, 3)]) 0 3 = some r ∧
      ∀ s d path printed, r = .Connected s d path printed →
        ∃ first last, printed.head? = some first ∧ first.1 = 0 ∧
          printed.getLast? = some last ∧ last.2 = 3 :=
  ⟨by decide,
    printed_pairs_walk_from_src (loadGraphFromFile 4 [(0, 1), (1, 2), (2, 3)]) 0 3 4
      (neighborsInRange_loadGraphFromFile (by decide)) (by decide) (by decide) (by decide)
      (by decide)⟩

/-- Claim C17. A call `addEdge g src dest` with in-range endpoints changes only the
neighbor lists of `src` and `dest`: `numVertices` is unchanged, the list of every other
vertex is unchanged, and the lists of `src` and `dest` keep their previous contents in
order behind exactly one new entry each (behind two new entries of the single list when
`src = dest`). -/
theorem addEdge_frame (g : Graph) (src dest : Int)
    (_hsrc : 0 ≤ src ∧ src < g.numVertices) (_hdest : 0 ≤ dest ∧ dest < g.numVertices) :
    (addEdge g src dest).numVertices = g.numVertices ∧
    (∀ v, v ≠ src → v ≠ dest → (addEdge g src dest).adjLists v = g.adjLists v) ∧
    (src ≠ dest →
      (addEdge g src dest).adjLists src = dest :: g.adjLists src ∧
      (addEdge g src dest).adjLists dest = src :: g.adjLists dest) ∧
    (src = dest → (addEdge g src dest).adjLists src = src :: src :: g.adjLists src) := by
  refine ⟨rfl, ?_, ?_, ?_⟩
  · intro v h1 h2
    rw [addEdge_adjLists]
    simp [pushedBy, h1, h2]
  · intro h
    constructor
    · rw [addEdge_adjLists]; simp [pushedBy, h]
    · rw [addEdge_adjLists]; simp [pushedBy, Ne.symm h]
  · intro h
    subst h
    rw [addEdge_adjLists]; simp [pushedBy]

/-- Witness of C17: the call `addEdge g 1 3` on the path graph `0 - 1 - 2 - 3`. -/
theorem addEdge_frame_witness :
    (addEdge (loadGraphFromFile 4 [(0, 1), (1, 2), (2, 3)]) 1 3).adjLists 1 = [3, 2, 0] ∧
    ((addEdge (loadGraphFromFile 4 [(0, 1), (1, 2), (2, 3)]) 1 3).numVertices
        = (loadGraphFromFile 4 [(0, 1), (1, 2), (2, 3)]).numVertices ∧
    (∀ v, v ≠ 1 → v ≠ 3 →
      (addEdge (loadGraphFromFile 4 [(0, 1), (1, 2), (2, 3)]) 1 3).adjLists v
        = (loadGraphFromFile 4 [(0, 1), (1, 2), (2, 3)]).adjLists v) ∧
    ((1 : Int) ≠ 3 →
      (addEdge (loadGraphFromFile 4 [(0, 1), (1, 2), (2, 3)]) 1 3).adjLists 1
        = 3 :: (loadGraphFromFile 4 [(0, 1), (1, 2), (2, 3)]).adjLists 1 ∧
      (addEdge (loadGraphFromFile 4 [(0, 1), (1, 2), (2, 3)]) 1 3).adjLists 3
        = 1 :: (loadGraphFromFile 4 [(0, 1), (1, 2), (2, 3)]).adjLists 3) ∧
    ((1 : Int) = 3 →
      (addEdge (loadGraphFromFile 4 [(0, 1), (1, 2), (2, 3)]) 1 3).adjLists 1
        = 1 :: 1 :: (loadGraphFromFile 4 [(0, 1), (1, 2), (2, 3)]).adjLists 1)) :=
  ⟨by decide,
    addEdge_frame (loadGraphFromFile 4 [(0, 1), (1, 2), (2, 3)]) 1 3 (by decide) (by decide)⟩

/-- Claim C18. The linked queue refines the FIFO list of the specification: for every
sequence of `enqueue`, `dequeue` and `isEmpty` calls made on `createQueue`, each call
returns what the same call returns on the FIFO list started empty (so `dequeue` returns
the vertices in the order of their `enqueue`, returns `-1` on the empty queue, and
`isEmpty` answers whether every enqueued vertex has been dequeued), and the chain of nodes
from `front` to `rear` carries exactly the FIFO list. -/
theorem linked_queue_refines_fifo (ops : List QueueOp) :
    (runQueue ops createQueue).2 = (runFifo ops []).2 ∧
    (runQueue ops createQueue).1.Holds (runFifo ops []).1 ∧
    isEmpty (runQueue ops createQueue).1 = (runFifo ops []).1.isEmpty := by
  obtain ⟨h1, h2⟩ := runQueue_refines ops createQueue [] holds_createQueue
  refine ⟨h1, h2, ?_⟩
  cases hl : (runFifo ops []).1 with
  | nil => rw [hl] at h2; simpa using (holds_isEmpty h2).2 rfl
  | cons a t =>
    rw [hl] at h2
    cases hq : isEmpty (runQueue ops createQueue).1 with
    | false => rfl
    | true => exact absurd ((holds_isEmpty h2).1 hq) (by simp)

/-- Claim C11. In every graph obtained from `createGraph n` by `addEdge` calls whose
endpoints lie in `[0, n)`, every id stored in every neighbor list lies in
`[0, numVertices)`; consequently, in the search loop of `findConnection` run from in-range
`src ≠ dest` (which returns, with any fuel of at least `n`), every index used in
`visited[neighbor]` and `parent[neighbor]` is within bounds, and so is every dequeued
vertex, used in `adjLists[current]`. -/
theorem neighbor_ids_in_range (n : Int) (edges : List (Int × Int)) (src dest : Int)
    (fuel : Nat) (hedges : InRangeEdges n edges) (hsrc : 0 ≤ src ∧ src < n)
    (_hdest : 0 ≤ dest ∧ dest < n) (hne : src ≠ dest) (hfuel : n ≤ fuel) :
    (∀ v b, b ∈ (loadGraphFromFile n edges).adjLists v →
      0 ≤ b ∧ b < (loadGraphFromFile n edges).numVertices) ∧
    ∃ st tr, bfsLoopTrace (loadGraphFromFile n edges) dest fuel (bfsInit src) = some (st, tr) ∧
      bfsLoop (loadGraphFromFile n edges) dest fuel (bfsInit src) = some st ∧
      ∀ it ∈ tr, (0 ≤ it.1 ∧ it.1 < n) ∧ ∀ e ∈ it.2, 0 ≤ e.index ∧ e.index < n := by
  have hN := loadGraphFromFile_numVertices n edges
  constructor
  · intro v b hb
    rw [hN]
    exact (endpoints_in_range_of_mem hedges hb).2
  · obtain ⟨st, tr, h1, h2, _⟩ := bfsLoopTrace_init
      (neighborsInRange_loadGraphFromFile hedges) dest fuel hsrc.1
      (by rw [hN]; exact hsrc.2) hne (by rw [hN]; exact hfuel)
    refine ⟨st, tr, h1, ?_, ?_⟩
    · rw [← bfsLoopTrace_fst, h1]; rfl
    · intro it hit
      have := h2 it hit
      rw [hN] at this
      exact this

/-- Witness of C11 on the path graph `0 - 1 - 2 - 3`, searched from 0 to 3. -/
theorem neighbor_ids_in_range_witness :
    (∀ v b, b ∈ (loadGraphFromFile 4 [(0, 1), (1, 2), (2, 3)]).adjLists v →
      0 ≤ b ∧ b < (loadGraphFromFile 4 [(0, 1), (1, 2), (2, 3)]).numVertices) ∧
    ∃ st tr, bfsLoopTrace (loadGraphFromFile 4 [(0, 1), (1, 2), (2, 3)]) 3 4 (bfsInit 0)
        = some (st, tr) ∧
      bfsLoop (loadGraphFromFile 4 [(0, 1), (1, 2), (2, 3)]) 3 4 (bfsInit 0) = some st ∧
      ∀ it ∈ tr, (0 ≤ it.1 ∧ it.1 < 4) ∧ ∀ e ∈ it.2, 0 ≤ e.index ∧ e.index < 4 :=
  neighbor_ids_in_range 4 [(0, 1), (1, 2), (2, 3)] 0 3 4 (by decide) (by decide) (by decide)
    (by decide) (by decide)

/-- Claim C14. For every graph whose neighbor ids are all in range and every pair of
in-range vertices `src ≠ dest`, the search loop of `findConnection` terminates: run with
any fuel of at least `numVertices` it returns its final state, the same as with fuel
`numVertices`, and it performs at most `numVertices` iterations, each of which makes the
one `dequeue` call of the loop. -/
theorem bfsLoop_terminates_within_numVertices (g : Graph) (src dest : Int) (fuel : Nat)
    (wf : g.NeighborsInRange) (hsrc : 0 ≤ src ∧ src < g.numVertices)
    (_hdest : 0 ≤ dest ∧ dest < g.numVertices) (hne : src ≠ dest)
    (hfuel : g.numVertices ≤ fuel) :
    ∃ st tr, bfsLoopTrace g dest fuel (bfsInit src) = some (st, tr) ∧
      bfsLoop g dest fuel (bfsInit src) = some st ∧
      bfsLoop g dest g.numVertices.toNat (bfsInit src) = some st ∧
      (tr.length : Int) ≤ g.numVertices := by
  obtain ⟨st, tr, h1, _, h3⟩ := bfsLoopTrace_init wf dest g.numVertices.toNat hsrc.1
    hsrc.2 hne (by omega)
  have h2 := bfsLoopTrace_mono g dest _ _ _ h1 fuel (by omega)
  refine ⟨st, tr, h2, ?_, ?_, by omega⟩
  · rw [← bfsLoopTrace_fst, h2]; rfl
  · rw [← bfsLoopTrace_fst, h1]; rfl

/-- Witness of C14 on the cycle `0 - 1 - 2 - 3 - 0`, searched from 0 to 2. -/
theorem bfsLoop_terminates_within_numVertices_witness :
    ∃ st tr, bfsLoopTrace (loadGraphFromFile 4 [(0, 1), (1, 2), (2, 3), (0, 3)]) 2 4
        (bfsInit 0) = some (st, tr) ∧
      bfsLoop (loadGraphFromFile 4 [(0, 1), (1, 2), (2, 3), (0, 3)]) 2 4 (bfsInit 0)
        = some st ∧
      bfsLoop (loadGraphFromFile 4 [(0, 1), (1, 2), (2, 3), (0, 3)]) 2
        (loadGraphFromFile 4 [(0, 1), (1, 2), (2, 3), (0, 3)]).numVertices.toNat (bfsInit 0)
        = some st ∧
      (tr.length : Int) ≤ (loadGraphFromFile 4 [(0, 1), (1, 2), (2, 3), (0, 3)]).numVertices :=
  bfsLoop_terminates_within_numVertices (loadGraphFromFile 4 [(0, 1), (1, 2), (2, 3), (0, 3)])
    0 2 4 (neighborsInRange_loadGraphFromFile (by decide)) (by decide) (by decide) (by decide)
    (by decide)

/-- Claim C15. Parallel edges do not affect the shortest-connection result: for every
graph `g` built from in-range edges, every edge `(a, b)` already present in `g` and every
pair of in-range vertices `src`, `dest`, the queries on `g` and on `g` with `(a, b)` added
once more both return (any fuel of at least `n` suffices), with the same verdict: the same
kind of answer and, when connected, paths with the same number of hops. -/
theorem parallel_edge_same_verdict (n : Int) (edges : List (Int × Int)) (a b src dest : Int)
    (fuel : Nat) (hedges : InRangeEdges n edges)
    (hab : b ∈ (loadGraphFromFile n edges).adjLists a) (hsrc : 0 ≤ src ∧ src < n)
    (hdest : 0 ≤ dest ∧ dest < n) (hfuel : n ≤ fuel) :
    ∃ r r2, findConnection fuel (loadGraphFromFile n edges) src dest = some r ∧
      findConnection fuel (addEdge (loadGraphFromFile n edges) a b) src dest = some r2 ∧
      r.verdict = r2.verdict := by
  have hN := loadGraphFromFile_numVertices n edges
  have hN2 : (addEdge (loadGraphFromFile n edges) a b).numVertices = n := by
    rw [addEdge_numVertices, hN]
  by_cases hne : src = dest
  · have hc1 : ¬ (src < 0 ∨ src ≥ (loadGraphFromFile n edges).numVertices ∨ dest < 0 ∨
        dest ≥ (loadGraphFromFile n edges).numVertices) := by rw [hN]; omega
    have hc2 : ¬ (src < 0 ∨ src ≥ (addEdge (loadGraphFromFile n edges) a b).numVertices ∨
        dest < 0 ∨ dest ≥ (addEdge (loadGraphFromFile n edges) a b).numVertices) := by
      rw [hN2]; omega
    refine ⟨.SameVertex src dest, .SameVertex src dest, ?_, ?_, rfl⟩
    · rw [findConnection, if_neg hc1, if_pos hne]
    · rw [findConnection, if_neg hc2, if_pos hne]
  · have wf := neighborsInRange_loadGraphFromFile hedges
    have hr := endpoints_in_range_of_mem hedges hab
    have wf2 : (addEdge (loadGraphFromFile n edges) a b).NeighborsInRange :=
      neighborsInRange_addEdge wf (by rw [hN]; exact hr.1) (by rw [hN]; exact hr.2)
    have hmem := mem_adjLists_addEdge_of_present (symmetric_loadGraphFromFile n edges) hab
    apply verdict_eq_of_walks wf wf2 (by rw [hN]; exact hsrc) (by rw [hN]; exact hdest) hne
      (by rw [hN2]; exact hsrc) (by rw [hN2]; exact hdest) hne (by rw [hN]; exact hfuel)
      (by rw [hN2]; exact hfuel)
    intro k
    exact ⟨walk_mono (fun x y h => (hmem x y).2 h), walk_mono (fun x y h => (hmem x y).1 h)⟩

/-- Witness of C15: the edge `(1, 2)` added once more to the path graph `0 - 1 - 2 - 3`,
queried from 0 to 3. -/
theorem parallel_edge_same_verdict_witness :
    findConnection 4 (addEdge (loadGraphFromFile 4 [(0, 1), (1, 2), (2, 3)]) 1 2) 0 3
        = some (.Connected 0 3 [3, 2, 1, 0] [(0, 1), (1, 2), (2, 3)]) ∧
    ∃ r r2, findConnection 4 (loadGraphFromFile 4 [(0, 1), (1, 2), (2, 3)]) 0 3 = some r ∧
      findConnection 4 (addEdge (loadGraphFromFile 4 [(0, 1), (1, 2), (2, 3)]) 1 2) 0 3
        = some r2 ∧
      r.verdict = r2.verdict :=
  ⟨by decide,
    parallel_edge_same_verdict 4 [(0, 1), (1, 2), (2, 3)] 1 2 0 3 4 (by decide) (by decide)
      (by decide) (by decide) (by decide)⟩

/-- Claim C16. Early exit: in the search of `findConnection`, wherever the recorded run
shows `dest` discovered as an unvisited neighbor, in the iteration that expands `c`, that
event is the last one of its iteration and that iteration is the last one of the run: no
further neighbor is examined, no further vertex is dequeued, no other vertex is marked
or given a parent.  The final state is the state in which `dest` was found unvisited,
changed by `visited[dest] = true`, `parent[dest] = c`, `enqueue(queue, dest)` and
`found = true` only.  Two facts of the loops say the same without the record: the inner
loop that meets an unvisited `dest` returns at once, whatever follows in the list, and
the outer loop entered with `found` set returns its state unchanged. -/
theorem early_exit_on_dest (g : Graph) (src dest : Int) (fuel : Nat)
    (tr : List (Int × List NeighborEvent))
    (h : (bfsLoopTrace g dest fuel (bfsInit src)).map Prod.snd = some tr)
    (its1 : List (Int × List NeighborEvent)) (c : Int) (evs : List NeighborEvent)
    (its2 : List (Int × List NeighborEvent)) (pre post : List NeighborEvent)
    (htr : tr = its1 ++ (c, evs) :: its2) (hevs : evs = pre ++ .discovered dest :: post) :
    (post = [] ∧ its2 = [] ∧
      ∃ st s0 : BfsState, bfsLoop g dest fuel (bfsInit src) = some st ∧
        s0.visited dest = false ∧
        st = { visited := setAt s0.visited dest true, parent := setAt s0.parent dest c,
               queue := enqueue s0.queue dest, found := true } ∧
        st.found = true ∧ st.visited dest = true ∧ st.parent dest = c) ∧
    (∀ (current : Int) (rest : List Int) (s : BfsState), s.visited dest = false →
      expandNeighbors dest current (dest :: rest) s =
        { visited := setAt s.visited dest true, parent := setAt s.parent dest current,
          queue := enqueue s.queue dest, found := true }) ∧
    (∀ (fuel2 : Nat) (s : BfsState), s.found = true → bfsLoop g dest fuel2 s = some s) := by
  refine ⟨?_, ?_, ?_⟩
  · simp only [Option.map_eq_some'] at h
    obtain ⟨⟨st, tr2⟩, h1, h2⟩ := h
    simp only at h2
    subst h2
    obtain ⟨hp, hi, s0, hs0, hst⟩ :=
      bfsLoopTrace_exit g dest fuel (bfsInit src) st tr2 rfl h1 its1 c evs its2 pre post htr hevs
    refine ⟨hp, hi, st, s0, ?_, hs0, hst, ?_, ?_, ?_⟩
    · rw [← bfsLoopTrace_fst, h1]; rfl
    · rw [hst]
    · rw [hst]; exact setAt_same _ _ _
    · rw [hst]; exact setAt_same _ _ _
  · intro current rest s hs
    simp [expandNeighbors, hs]
  · intro fuel2 s hs
    cases fuel2 <;> (rw [bfsLoop]; simp [hs])

/-- Witness of C16 on the path graph `0 - 1 - 2 - 3`, searched from 0 to 2: vertex 2 is
discovered while 1 is expanded, and the remaining neighbor 0 of 1 is not examined. -/
theorem early_exit_on_dest_witness :
    (([] : List NeighborEvent) = [] ∧ ([] : List (Int × List NeighborEvent)) = [] ∧
      ∃ st s0 : BfsState,
        bfsLoop (loadGraphFromFile 4 [(0, 1), (1, 2), (2, 3)]) 2 4 (bfsInit 0) = some st ∧
        s0.visited 2 = false ∧
        st = { visited := setAt s0.visited 2 true, parent := setAt s0.parent 2 1,
               queue := enqueue s0.queue 2, found := true } ∧
        st.found = true ∧ st.visited 2 = true ∧ st.parent 2 = 1) ∧
    (∀ (current : Int) (rest : List Int) (s : BfsState), s.visited 2 = false →
      expandNeighbors 2 current (2 :: rest) s =
        { visited := setAt s.visited 2 true, parent := setAt s.parent 2 current,
          queue := enqueue s.queue 2, found := true }) ∧
    (∀ (fuel2 : Nat) (s : BfsState), s.found = true →
      bfsLoop (loadGraphFromFile 4 [(0, 1), (1, 2), (2, 3)]) 2 fuel2 s = some s) :=
  early_exit_on_dest (loadGraphFromFile 4 [(0, 1), (1, 2), (2, 3)]) 0 2 4
    [(0, [.examined 1, .discovered 1]), (1, [.examined 2, .discovered 2])] (by decide)
    [(0, [.examined 1, .discovered 1])] 1 [.examined 2, .discovered 2] [] [.examined 2] []
    rfl rfl

/-- Claim C19. Path reconstruction stays within its buffer: for every graph whose neighbor
ids are in range and every in-range `src ≠ dest`, the search returns (any fuel of at least
`numVertices` suffices) and, when it has set `found`, following the parent links from
`dest` reaches `src`, which is the only visited vertex whose parent is `-1`, without
repeating a vertex; the loop writes at most `numVertices` entries into `path`, and every
index at which it reads `parent` (the entries it writes) is in range. -/
theorem reconstruction_within_buffer (g : Graph) (src dest : Int) (fuel : Nat)
    (wf : g.NeighborsInRange) (hsrc : 0 ≤ src ∧ src < g.numVertices)
    (_hdest : 0 ≤ dest ∧ dest < g.numVertices) (hne : src ≠ dest)
    (hfuel : g.numVertices ≤ fuel) :
    ∃ st, bfsLoop g dest fuel (bfsInit src) = some st ∧
      (st.found = true →
        ∃ path, reconstructPath st.parent fuel dest = some path ∧
          path.head? = some dest ∧ path.getLast? = some src ∧ path.Nodup ∧
          (path.length : Int) ≤ g.numVertices ∧
          (∀ x ∈ path, 0 ≤ x ∧ x < g.numVertices) ∧
          (∀ v, st.visited v = true → (st.parent v = -1 ↔ v = src))) := by
  obtain ⟨s, lvl, todo, hloop, inv, _⟩ := bfsLoop_init wf hsrc.1 hsrc.2 hne hfuel
  refine ⟨s, hloop, ?_⟩
  intro hf
  have hv : s.visited dest = true := inv.found_iff.1 hf
  obtain ⟨p0, _, a2, _, _, _, a6, a7⟩ :=
    reconstructPath_spec inv (lvl dest) dest hv rfl (lvl dest + 1) (le_refl _)
  have hnd0 : p0.Nodup := a7.imp (fun h heq => by rw [heq] at h; exact lt_irrefl _ h)
  have hlen := length_le_of_nodup_range hnd0 (fun x hx => inv.range x (a6 x hx).1)
  obtain ⟨path, b1, b2, b3, b4, _, b6, b7⟩ :=
    reconstructPath_spec inv (lvl dest) dest hv rfl fuel (by omega)
  refine ⟨path, b1, b3, b4, b7.imp (fun h heq => by rw [heq] at h; exact lt_irrefl _ h),
    by omega, fun x hx => inv.range x (b6 x hx).1, ?_⟩
  intro v hvis
  constructor
  · intro hp
    by_contra hvs
    have h1 := (inv.parent_ok v hvis hvs).1
    have h2 := (inv.range _ h1).1
    omega
  · intro hvs
    rw [hvs]; exact inv.src_parent

/-- Witness of C19 on the path graph `0 - 1 - 2 - 3`, searched from 0 to 3. -/
theorem reconstruction_within_buffer_witness :
    ∃ st, bfsLoop (loadGraphFromFile 4 [(0, 1), (1, 2), (2, 3)]) 3 4 (bfsInit 0) = some st ∧
      (st.found = true →
        ∃ path, reconstructPath st.parent 4 3 = some path ∧
          path.head? = some 3 ∧ path.getLast? = some 0 ∧ path.Nodup ∧
          (path.length : Int) ≤ (loadGraphFromFile 4 [(0, 1), (1, 2), (2, 3)]).numVertices ∧
          (∀ x ∈ path,
            0 ≤ x ∧ x < (loadGraphFromFile 4 [(0, 1), (1, 2), (2, 3)]).numVertices) ∧
          (∀ v, st.visited v = true → (st.parent v = -1 ↔ v = 0))) :=
  reconstruction_within_buffer (loadGraphFromFile 4 [(0, 1), (1, 2), (2, 3)]) 0 3 4
    (neighborsInRange_loadGraphFromFile (by decide)) (by decide) (by decide) (by decide)
    (by decide)

/-- Claim C20. The connection query is symmetric in its endpoints: for every graph built
from in-range edges and every pair of in-range vertices `a ≠ b`, the queries from `a` to
`b` and from `b` to `a` both return (any fuel of at least `n` suffices), with the same
verdict: one finds a connection if and only if the other does, and then the two reported
paths have the same number of hops. -/
theorem connection_symmetric (n : Int) (edges : List (Int × Int)) (a b : Int) (fuel : Nat)
    (hedges : InRangeEdges n edges) (ha : 0 ≤ a ∧ a < n) (hb : 0 ≤ b ∧ b < n) (hne : a ≠ b)
    (hfuel : n ≤ fuel) :
    ∃ r r2, findConnection fuel (loadGraphFromFile n edges) a b = some r ∧
      findConnection fuel (loadGraphFromFile n edges) b a = some r2 ∧
      r.verdict = r2.verdict ∧ r.verdict ≠ .outOfRange ∧ r.verdict ≠ .sameVertex := by
  have hN := loadGraphFromFile_numVertices n edges
  have wf := neighborsInRange_loadGraphFromFile hedges
  have hsym := symmetric_loadGraphFromFile n edges
  obtain ⟨r, r2, h1, h2, h3⟩ := verdict_eq_of_walks wf wf
    (by rw [hN]; exact ha) (by rw [hN]; exact hb) hne (by rw [hN]; exact hb)
    (by rw [hN]; exact ha) (Ne.symm hne) (by rw [hN]; exact hfuel) (by rw [hN]; exact hfuel)
    (fun k => ⟨walk_reverse hsym, walk_reverse hsym⟩)
  refine ⟨r, r2, h1, h2, h3, ?_, ?_⟩
  · rcases findConnection_search_load fuel hedges ha hb hne hfuel with ⟨p, e, _⟩ | ⟨e, _⟩ <;>
      (rw [h1] at e; simp only [Option.some.injEq] at e; rw [e]; simp [ConnectionResult.verdict])
  · rcases findConnection_search_load fuel hedges ha hb hne hfuel with ⟨p, e, _⟩ | ⟨e, _⟩ <;>
      (rw [h1] at e; simp only [Option.some.injEq] at e; rw [e]; simp [ConnectionResult.verdict])

/-- Witness of C20 on the cycle `0 - 1 - 2 - 3 - 0` with a pendant vertex 4 at 2: the
queries from 0 to 4 and from 4 to 0 both report a path of 3 hops. -/
theorem connection_symmetric_witness :
    findConnection 5 (loadGraphFromFile 5 [(0, 1), (1, 2), (2, 3), (0, 3), (2, 4)]) 0 4
        = some (.Connected 0 4 [4, 2, 3, 0] [(0, 3), (3, 2), (2, 4)]) ∧
    findConnection 5 (loadGraphFromFile 5 [(0, 1), (1, 2), (2, 3), (0, 3), (2, 4)]) 4 0
        = some (.Connected 4 0 [0, 3, 2, 4] [(4, 2), (2, 3), (3, 0)]) ∧
    ∃ r r2,
      findConnection 5 (loadGraphFromFile 5 [(0, 1), (1, 2), (2, 3), (0, 3), (2, 4)]) 0 4
        = some r ∧
      findConnection 5 (loadGraphFromFile 5 [(0, 1), (1, 2), (2, 3), (0, 3), (2, 4)]) 4 0
        = some r2 ∧
      r.verdict = r2.verdict ∧ r.verdict ≠ .outOfRange ∧ r.verdict ≠ .sameVertex :=
  ⟨by decide, by decide,
    connection_symmetric 5 [(0, 1), (1, 2), (2, 3), (0, 3), (2, 4)] 0 4 5 (by decide)
      (by decide) (by decide) (by decide) (by decide)⟩

end SocialGraph
